import Mathlib

/-!
Verification of the `mqtt-subscription-vault` subscription trie
(`src/index.js`, class `SubscriptionVault`).

The JavaScript code keeps subscriptions in a mutable object graph: each
tree node is a plain object that may or may not carry the fields
`children` (an object mapping path segments to child nodes),
`subscriptions` (an array of opaque subscriber handles) and `parent`
(a back-reference to the node it was created under).  We embed this
object graph as a heap: node objects become records stored at natural
number addresses, an absent field becomes `none`, and every mutation of
the JS code becomes an explicit heap update.  Lifecycle callbacks
(`onTopicAdded`, `onTopicRemoved`) and the `console.error` diagnostic in
`remove` are modelled as an emitted event list.  A JavaScript `TypeError`
(the code reads `node.children[pathElement]` even when `node.children`
is `undefined`, and deletes `parent.children[pathElement]` even when
`parent.children` is `undefined`) is modelled by a thrown-flag / `none`
result; the heap returned alongside a thrown flag is the state at the
point the exception fired.

`traverse` of the source is a `forEach` over the segment list that skips
all remaining iterations once the cursor becomes `undefined`; it is
inlined at each of its call sites below (`add`, the downward and upward
passes of `remove`, and `findMatchesByPath`), which makes each loop a
structural recursion over the remaining path.
-/

/-- Opaque subscriber handles; the JS code compares them only with `===`. -/
abbrev Subscription := Nat

/-- Observable effects of `add` / `remove`: the two lifecycle callbacks and
the `console.error` diagnostic emitted when removing an absent handle. -/
inductive Event where
  | added (topic : String)
  | removed (topic : String)
  | notFound (topic : String) (s : Subscription)
deriving DecidableEq, Repr

/-- One tree-node object.  `none` in a field means the JS object lacks that
field (`undefined`); `children` is the insertion-ordered association list of
segment names to child addresses. -/
structure Node where
  children : Option (List (String × Nat))
  subscriptions : Option (List Subscription)
  parent : Option Nat
deriving DecidableEq, Repr

/-- The heap of node objects: a partial map from addresses to nodes together
with the next fresh address. -/
structure Heap where
  mem : Nat → Option Node
  next : Nat

/-- Read the object stored at address `a`. -/
def Heap.get (h : Heap) (a : Nat) : Option Node := h.mem a

/-- Overwrite the object stored at address `a` (a JS field assignment on an
existing object). -/
def Heap.set (h : Heap) (a : Nat) (nd : Node) : Heap :=
  ⟨fun x => if x = a then some nd else h.mem x, h.next⟩

/-- Allocate a fresh object (a JS object literal). -/
def Heap.alloc (h : Heap) (nd : Node) : Nat × Heap :=
  (h.next, ⟨fun x => if x = h.next then some nd else h.mem x, h.next + 1⟩)

/-- The empty heap. -/
def Heap.empty : Heap := ⟨fun _ => none, 0⟩

/-- Lookup in a JS object viewed as an association list (`obj[k]`), i.e.
lookup among the object's *own* keys.  Real JS property access falls back to
the prototype chain when the own key is absent: for the property names of
`Object.prototype` (see `protoProps`) a plain object yields the inherited
value, not `undefined`.  Theorems that range over arbitrary topics therefore
restrict their segments to names outside `protoProps`, where own-key lookup
is exact. -/
def alookup : List (String × Nat) → String → Option Nat
  | [], _ => none
  | (k', v') :: t, k => if k' = k then some v' else alookup t k

/-- Assignment `obj[k] = v` on a JS object: replaces the binding in place if
the key exists, otherwise appends it (JS string keys keep insertion order). -/
def aset : List (String × Nat) → String → Nat → List (String × Nat)
  | [], k, v => [(k, v)]
  | (k', v') :: t, k, v => if k' = k then (k, v) :: t else (k', v') :: aset t k v

/-- Deletion `delete obj[k]` on a JS object (deletes only own keys, exactly
like the JS operator). -/
def adel : List (String × Nat) → String → List (String × Nat)
  | [], _ => []
  | (k', v') :: t, k => if k' = k then t else (k', v') :: adel t k

/-- The property names a plain JS object `{}` inherits from
`Object.prototype`.  A computed access `obj[k]` or a destructuring default
for `obj[k]` sees the inherited value (a function, or the accessor
`__proto__`) when `k` is one of these and `obj` has no own key `k`; for
every other string the access yields `undefined` and the association-list
model `alookup` is exact.  Segments drawn from this list make the code
stray into inherited objects (e.g. `add("constructor", s)` installs the
inherited `Object` function as a node), so theorems quantifying over
topics hypothesize that their segments avoid these names. -/
def protoProps : List String :=
  ["constructor", "hasOwnProperty", "isPrototypeOf", "propertyIsEnumerable",
   "toLocaleString", "toString", "valueOf", "__defineGetter__",
   "__defineSetter__", "__lookupGetter__", "__lookupSetter__", "__proto__"]

/-- A JS reference value as it flows through `remove`: `undef` is
`undefined`, `dummy` is a fresh empty object created by a destructuring
default (`child={}` / `parent={children: {}}`) that is never stored into the
tree, and `addr` is a reference to a heap node. -/
inductive JRef where
  | undef
  | dummy
  | addr (a : Nat)
deriving DecidableEq, Repr

/-- The vault state: the heap of node objects plus the address of
`this.subscriptionTree` (the root node). -/
structure SubscriptionVault where
  heap : Heap
  subscriptionTree : Nat

namespace SubscriptionVault

/-- `topicToPath` of the source: split the topic string on the one-character
delimiter `/` (`topic.split('/')`), here as a split of the character list. -/
def topicToPath (topic : String) : List String :=
  (topic.toList.splitOn '/').map (fun cs => String.mk cs)

/-- `findMatchesByPath` of the source (`traverse` inlined): walk the path
from `node`, at each position collecting `#`-child subscriptions, the
results of recursing into a `+` child on the remaining path, and — at the
last position — the subscriptions of the exact-match child.  Returns `none`
when the walk throws: the loop body ends with
`node = node.children[pathElement]`, which raises a `TypeError` whenever the
current node object has no `children` field. -/
def findMatchesByPath (h : Heap) : List String → Option Nat → Option (List Subscription)
  | [], _ => some []
  | _ :: _, none => some []
  | pathElement :: rest, some a =>
    match h.get a with
    | none => some []
    | some nd =>
      let children := nd.children.getD []
      let multiLevelSubs :=
        ((alookup children "#").bind fun ca => (h.get ca).bind Node.subscriptions).getD []
      let singleLevel := alookup children "+"
      let nodeSubscriptions :=
        ((alookup children pathElement).bind fun ca => (h.get ca).bind Node.subscriptions).getD []
      let part1 := if multiLevelSubs.length > 0 ∧ pathElement ≠ "#" then multiLevelSubs else []
      let part2 :=
        match singleLevel with
        | some w => if pathElement ≠ "+" then findMatchesByPath h rest (some w) else some []
        | none => some []
      let part3 := if rest = [] then nodeSubscriptions else []
      match nd.children with
      | none => none
      | some actual =>
        match part2 with
        | none => none
        | some p2 =>
          match findMatchesByPath h rest (alookup actual pathElement) with
          | none => none
          | some tailRes => some (part1 ++ p2 ++ part3 ++ tailRes)

/-- `findMatches` of the source. -/
def findMatches (v : SubscriptionVault) (topic : String) : Option (List Subscription) :=
  findMatchesByPath v.heap (topicToPath topic) (some v.subscriptionTree)

/-- The loop of `add` (`traverse` with the `add` callback inlined): at each
visited node ensure the child at the current segment exists (creating
`{parent: node}` if absent), and at the last segment append the subscription
and fire `onTopicAdded` if the child held no subscriptions before.  `add`
never throws: the callback always (re)assigns `node.children[pathElement]`
before the loop advances through it. -/
def addLoop (s : Subscription) (topic : String) : List String → Nat → Heap → Heap × List Event
  | [], _, h => (h, [])
  | pathElement :: rest, a, h =>
    match h.get a with
    | none => (h, [])
    | some nd =>
      let existing := alookup (nd.children.getD []) pathElement
      let childSubscriptions :=
        (existing.bind fun ca => (h.get ca).bind Node.subscriptions).getD []
      let (childAddr, h1) :=
        match existing with
        | some ca => (ca, h)
        | none => h.alloc ⟨none, none, some a⟩
      let h2 := h1.set a { nd with children := some (aset (nd.children.getD []) pathElement childAddr) }
      if rest = [] then
        match h2.get childAddr with
        | none => (h2, [])
        | some cnode =>
          (h2.set childAddr { cnode with subscriptions := some (childSubscriptions ++ [s]) },
           if childSubscriptions.length = 0 then [Event.added topic] else [])
      else
        addLoop s topic rest childAddr h2

/-- `add` of the source. -/
def add (v : SubscriptionVault) (topic : String) (s : Subscription) :
    SubscriptionVault × List Event :=
  let (h, evs) := addLoop s topic (topicToPath topic) v.subscriptionTree v.heap
  (⟨h, v.subscriptionTree⟩, evs)

/-- The downward pass of `remove` (`traverse` with the first `remove`
callback inlined).  Arguments: remaining path, current cursor (`undefined`
or a node address), the `nextNode` cache, current heap.  Returns the heap,
the emitted events, the final `nextNode`, and whether the walk threw
(`node = node.children[pathElement]` with `children` absent). -/
def removeDown (s : Subscription) (topic : String) :
    List String → Option Nat → JRef → Heap → Heap × List Event × JRef × Bool
  | [], _, nn, h => (h, [], nn, false)
  | _ :: _, none, nn, h => (h, [], nn, false)
  | pathElement :: rest, some a, _, h =>
    match h.get a with
    | none => (h, [], JRef.undef, false)
    | some nd =>
      let children := nd.children.getD []
      let childRef : JRef :=
        match alookup children pathElement with
        | some ca => JRef.addr ca
        | none => JRef.dummy
      let childSubscriptions :=
        ((alookup children pathElement).bind fun ca => (h.get ca).bind Node.subscriptions).getD []
      let (h1, evs) :=
        if rest = [] then
          let (h1, evs1) :=
            if s ∈ childSubscriptions then
              match alookup children pathElement with
              | some ca =>
                match h.get ca with
                | some cnode =>
                  (h.set ca { cnode with subscriptions := some (childSubscriptions.filter (· ≠ s)) }, [])
                | none => (h, [])
              | none => (h, [])
            else
              (h, [Event.notFound topic s])
          let fires : Bool :=
            match childRef with
            | JRef.addr ca => ((h1.get ca).bind Node.subscriptions).map List.length == some 0
            | _ => false
          (h1, evs1 ++ if fires then [Event.removed topic] else [])
        else
          (h, [])
      match nd.children with
      | none => (h1, evs, childRef, true)
      | some actual =>
        let (h2, evs2, nn2, th) := removeDown s topic rest (alookup actual pathElement) childRef h1
        (h2, evs ++ evs2, nn2, th)

/-- The upward pass of `remove` (`traverse` with `reverseDirection` and the
pruning callback inlined): walk `parent` references along the reversed path;
at each node with no children and no subscriptions, delete the node's key
from its parent's `children` (a no-op when the parent is the destructuring
default `{children: {}}`; a `TypeError`, flagged `true`, when the parent is a
real object without a `children` field). -/
def removeUp : List String → JRef → Heap → Heap × Bool
  | [], _, h => (h, false)
  | _ :: _, JRef.undef, h => (h, false)
  | _ :: rest, JRef.dummy, h => removeUp rest JRef.undef h
  | pathElement :: rest, JRef.addr a, h =>
    match h.get a with
    | none => (h, false)
    | some nd =>
      if (nd.children.getD []) = [] ∧ (nd.subscriptions.getD []) = [] then
        match nd.parent with
        | none => removeUp rest JRef.undef h
        | some pa =>
          match h.get pa with
          | none => removeUp rest (JRef.addr pa) h
          | some pn =>
            match pn.children with
            | none => (h, true)
            | some pch =>
              removeUp rest (JRef.addr pa)
                (h.set pa { pn with children := some (adel pch pathElement) })
      else
        removeUp rest (match nd.parent with | some pa => JRef.addr pa | none => JRef.undef) h

/-- `remove` of the source: the downward pass (remove the handle from the
terminal child, fire `onTopicRemoved` when the post-removal subscription
list is present and empty), then — if the downward pass did not throw — the
upward pruning pass over the reversed path starting at `nextNode`. -/
def remove (v : SubscriptionVault) (topic : String) (s : Subscription) :
    SubscriptionVault × List Event × Bool :=
  let p := topicToPath topic
  let (h1, evs, nn, th) := removeDown s topic p (some v.subscriptionTree) JRef.undef v.heap
  if th then (⟨h1, v.subscriptionTree⟩, evs, true)
  else
    let (h2, th2) := removeUp p.reverse nn h1
    (⟨h2, v.subscriptionTree⟩, evs, th2)

/-- `reset` of the source: `this.subscriptionTree = {}`. -/
def reset (v : SubscriptionVault) : SubscriptionVault :=
  let (r, h) := v.heap.alloc ⟨none, none, none⟩
  ⟨h, r⟩

end SubscriptionVault

/-- A tree value of the documented `subscriptionTree` shape
(`{children: {segment: node, ...}, subscriptions: [...]}`): both fields
present, no `parent` back-references. -/
inductive PTree where
  | node (children : List (String × PTree)) (subscriptions : List Subscription)

mutual

/-- Allocate a doc-shape tree as an object graph on the heap (children
first, then the node itself); loaded nodes carry no `parent` field, exactly
like a literal of the documented shape. -/
def PTree.load : PTree → Heap → Nat × Heap
  | .node cs subs, h =>
    let (cas, h1) := PTree.loadChildren cs h
    h1.alloc ⟨some cas, some subs, none⟩

/-- Load a list of child subtrees, left to right. -/
def PTree.loadChildren : List (String × PTree) → Heap → List (String × Nat) × Heap
  | [], h => ([], h)
  | (e, t) :: rest, h =>
    let (a, h1) := t.load h
    let (ras, h2) := PTree.loadChildren rest h1
    ((e, a) :: ras, h2)

end

/-- The constructor's configuration object.  The source destructures exactly
`{subscriptionTree={}, onTopicAdded=()=>{}, onTopicRemoved=()=>{}}`; an
`initialTree` key is not among the recognized options, so we carry it here
only to express what a caller passing it would observe. -/
structure Config where
  subscriptionTree : Option PTree := none
  initialTree : Option PTree := none

/-- The `SubscriptionVault` constructor: store the supplied
`subscriptionTree` (default: a fresh empty object `{}`).  Any `initialTree`
entry of the configuration is ignored by the destructuring. -/
def SubscriptionVault.construct (cfg : Config) : SubscriptionVault :=
  match cfg.subscriptionTree with
  | some t =>
    let (r, h) := t.load Heap.empty
    ⟨h, r⟩
  | none =>
    let (r, h) := Heap.empty.alloc ⟨none, none, none⟩
    ⟨h, r⟩

/-- A vault as produced by `new SubscriptionVault({})`. -/
def freshVault : SubscriptionVault := SubscriptionVault.construct {}

/-- Follow a segment path downward through `children` from address `a`. -/
def followPath (h : Heap) : Nat → List String → Option Nat
  | a, [] => some a
  | a, e :: p =>
    match h.get a with
    | none => none
    | some nd =>
      match alookup (nd.children.getD []) e with
      | some c => followPath h c p
      | none => none

/-- The child of node `a` at segment `e`. -/
def childAt (h : Heap) (a : Nat) (e : String) : Option Nat :=
  (h.get a).bind fun nd => alookup (nd.children.getD []) e

/-- A topic always tokenizes to at least one segment (JS `split` never
returns an empty array). -/
theorem topicToPath_ne_nil (t : String) : SubscriptionVault.topicToPath t ≠ [] := by
  unfold SubscriptionVault.topicToPath
  intro hmap
  exact List.splitOnP_ne_nil _ _ (List.map_eq_nil_iff.mp hmap)

/-- A matching walk that starts at a node object without a `children` field
throws at the end of its first iteration. -/
theorem findMatchesByPath_childless {h : Heap} {a : Nat} {nd : Node}
    (hget : h.get a = some nd) (hch : nd.children = none) {p : List String} (hp : p ≠ []) :
    SubscriptionVault.findMatchesByPath h p (some a) = none := by
  match p, hp with
  | pe :: rest, _ =>
    unfold SubscriptionVault.findMatchesByPath
    rw [hget]
    simp only [hch]

/-- The event list returned by `remove` is the event list of its downward
pass, whether or not either pass throws. -/
theorem remove_events_eq (v : SubscriptionVault) (t : String) (s : Subscription) :
    (v.remove t s).2.1 =
      (SubscriptionVault.removeDown s t (SubscriptionVault.topicToPath t)
        (some v.subscriptionTree) JRef.undef v.heap).2.1 := by
  simp only [SubscriptionVault.remove]
  generalize SubscriptionVault.removeDown s t (SubscriptionVault.topicToPath t)
    (some v.subscriptionTree) JRef.undef v.heap = r
  obtain ⟨h1, evs, nn, th⟩ := r
  cases th <;> rfl

/-- Claim C1 (status: code_bug).  The spec promises that `findMatches` on a
fresh instance, or on any instance immediately after `reset()`, returns the
empty sequence for every topic.  The code instead throws a `TypeError` for
every topic in both situations: the root object is `{}`, so the traversal's
advance `node.children[pathElement]` reads a property of `undefined` on the
very first iteration.  Modelled result `none` is the thrown walk. -/
theorem claim_C1_fresh_findMatches_throws :
    (∀ t : String, freshVault.findMatches t = none) ∧
      (∀ (v : SubscriptionVault) (t : String), (v.reset).findMatches t = none) := by
  constructor
  · intro t
    exact @findMatchesByPath_childless freshVault.heap 0 ⟨none, none, none⟩ rfl rfl
      _ (topicToPath_ne_nil t)
  · intro v t
    exact @findMatchesByPath_childless (v.reset).heap v.heap.next ⟨none, none, none⟩
      (by simp [SubscriptionVault.reset, Heap.alloc, Heap.get]) rfl
      _ (topicToPath_ne_nil t)

/-- Claim C2 (status: code_bug).  The spec says no public operation ever
throws.  In the code, `findMatches` and `remove` throw a `TypeError`
whenever the downward walk stands on a node object that has no `children`
field and must advance (`node.children[pathElement]` with `children`
`undefined`): here `findMatches("x/y")` after only `add("x", 5)` throws
(the node for `x` is a leaf without a `children` field), and `remove` on a
fresh vault throws at the root.  The silent-stop behaviour the spec
describes only happens when `children` exists but lacks the segment key,
as in the third conjunct. -/
theorem claim_C2_operations_throw :
    ((freshVault.add "x" 5).1.findMatches "x/y" = none) ∧
      ((freshVault.remove "q" 1).2.2 = true) ∧
      (((freshVault.add "x" 5).1.remove "z" 5).2 = ([Event.notFound "z" 5], false)) := by
  refine ⟨by decide, by decide, by decide⟩

/-- Claim C4, counterexample.  A vault constructed from a supplied
`subscriptionTree` of the documented shape (which has no `parent`
back-references) is a vault state on which `remove` ends with the pruning
invariant broken: after removing the only subscriber of `"a"`, the emptied
node (address 0, reachable from the root at address 1 via the segment `a`)
still has zero `children` entries and zero `subscriptions`, because the
upward pruning pass walks `parent` references and the loaded node has none. -/
theorem claim_C4_counterexample :
    (SubscriptionVault.construct
        { subscriptionTree := some (.node [("a", .node [] [5])] []) } |>.remove "a" 5).2 =
        ([Event.removed "a"], false) ∧
      ((SubscriptionVault.construct
        { subscriptionTree := some (.node [("a", .node [] [5])] []) } |>.remove "a" 5).1.subscriptionTree = 1) ∧
      (followPath (SubscriptionVault.construct
        { subscriptionTree := some (.node [("a", .node [] [5])] []) } |>.remove "a" 5).1.heap 1 ["a"] = some 0) ∧
      ((SubscriptionVault.construct
        { subscriptionTree := some (.node [("a", .node [] [5])] []) } |>.remove "a" 5).1.heap.get 0 =
        some ⟨some [], some [], none⟩) := by
  refine ⟨by decide, by decide, by decide, by decide⟩

/-- Claim C7, counterexample.  In the reachable state built by
`add("a",1); add("a/b",2); remove("a",1)`, the node for `"a"` survives (it
still has the child `b`) with a present-but-empty subscription list.  A
subsequent `remove("a", 99)` — handle `99` is not in the subscription set at
the terminal node — nevertheless fires `onTopicRemoved("a")`, because the
code fires whenever the post-removal subscription list is present and
empty, found or not. -/
theorem claim_C7_counterexample :
    (((((freshVault.add "a" 1).1.add "a/b" 2).1.remove "a" 1).1.heap.get 1).bind
        Node.subscriptions = some []) ∧
      ((((freshVault.add "a" 1).1.add "a/b" 2).1.remove "a" 1).1.remove "a" 99).2.1 =
        [Event.notFound "a" 99, Event.removed "a"] := by
  refine ⟨by decide, by decide⟩

/-- A successful lookup through an optional `children` field means the field
is present and the lookup succeeds in it. -/
theorem alookup_getD_some {oc : Option (List (String × Nat))} {e : String} {c : Nat}
    (hl : alookup (oc.getD []) e = some c) :
    ∃ actual, oc = some actual ∧ alookup actual e = some c := by
  cases oc with
  | none => exact absurd hl (by simp [alookup])
  | some actual => exact ⟨actual, rfl, hl⟩

/-- Following a path and then one more segment is following the path and
then stepping to the child. -/
theorem followPath_append (h : Heap) (e : String) :
    ∀ (q : List String) (a : Nat),
      followPath h a (q ++ [e]) = (followPath h a q).bind (fun b => childAt h b e) := by
  intro q
  induction q with
  | nil =>
    intro a
    simp only [List.nil_append, followPath, childAt, Option.bind]
    cases hg : h.get a with
    | none => simp [followPath, hg]
    | some nd =>
      cases hl : alookup (nd.children.getD []) e with
      | none => simp [followPath, hg, hl]
      | some c => simp [followPath, hg, hl]
  | cons e0 q ih =>
    intro a
    simp only [List.cons_append, followPath]
    cases hg : h.get a with
    | none => rfl
    | some nd =>
      cases hl : alookup (nd.children.getD []) e0 with
      | none => simp [hl]
      | some c => simp only [hl]; exact ih c

/-- The downward pass of `remove` ignores the incoming `nextNode` cache as
long as the cursor is a live node. -/
theorem removeDown_nn_irrel (s : Subscription) (t : String) (pe : String)
    (rest : List String) (a : Nat) (h : Heap) (nn nn' : JRef) :
    SubscriptionVault.removeDown s t (pe :: rest) (some a) nn h =
      SubscriptionVault.removeDown s t (pe :: rest) (some a) nn' h := rfl

/-- Walking the downward pass of `remove` over an intact path prefix makes
no writes and emits no events; the pass is the final-segment step from the
node the prefix leads to. -/
theorem removeDown_skip (s : Subscription) (t : String) (e : String) :
    ∀ (q : List String) (a b : Nat) (h : Heap) (nn : JRef),
      followPath h a q = some b →
      SubscriptionVault.removeDown s t (q ++ [e]) (some a) nn h =
        SubscriptionVault.removeDown s t [e] (some b) JRef.undef h := by
  intro q
  induction q with
  | nil =>
    intro a b h nn hf
    simp only [followPath] at hf
    cases hf
    simp only [List.nil_append]
    exact removeDown_nn_irrel s t e [] a h nn JRef.undef
  | cons e0 q ih =>
    intro a b h nn hf
    simp only [followPath] at hf
    split at hf
    · exact absurd hf (by simp)
    · rename_i nd hg
      split at hf
      case h_2 => exact absurd hf (by simp)
      case h_1 c hl =>
        obtain ⟨actual, hact, hla⟩ := alookup_getD_some hl
        have key : SubscriptionVault.removeDown s t (e0 :: (q ++ [e])) (some a) nn h =
            SubscriptionVault.removeDown s t (q ++ [e]) (some c) (JRef.addr c) h := by
          have hne : ¬ (q ++ [e] = []) := by simp
          simp only [SubscriptionVault.removeDown, hg, hact, Option.getD_some, hla, if_neg hne]
          generalize SubscriptionVault.removeDown s t (q ++ [e]) (some c) (JRef.addr c) h = r
          obtain ⟨h2, evs2, nn2, th⟩ := r
          simp
        rw [List.cons_append, key, ih c b h (JRef.addr c) hf]

/-- Claim C9, counterexample.  The constructor's recognized option is named
`subscriptionTree`, not `initialTree`: constructing with
`{initialTree: T}` leaves the vault on the default empty root, so
`findMatches` on the topic registered in `T` does not return its
subscription (it throws, modelled `none`). -/
theorem claim_C9_counterexample :
    (SubscriptionVault.construct
        { initialTree := some (.node [("a", .node [] [7])] []) }).findMatches "a" = none ∧
      ¬ ∃ res, (SubscriptionVault.construct
        { initialTree := some (.node [("a", .node [] [7])] []) }).findMatches "a" = some res ∧
          7 ∈ res := by
  constructor
  · decide
  · rintro ⟨res, hres, -⟩
    rw [show (SubscriptionVault.construct
        { initialTree := some (.node [("a", .node [] [7])] []) }).findMatches "a" = none
      from by decide] at hres
    exact Option.noConfusion hres

/-- One step of the matching walk at a node whose `children` field is
present, written out explicitly. -/
theorem findMatchesByPath_cons (h : Heap) (pe : String) (rest : List String) (a : Nat)
    (nd : Node) (actual : List (String × Nat)) (hget : h.get a = some nd)
    (hact : nd.children = some actual) :
    SubscriptionVault.findMatchesByPath h (pe :: rest) (some a) =
      (let multiLevelSubs :=
        ((alookup actual "#").bind fun ca => (h.get ca).bind Node.subscriptions).getD []
       let part1 := if multiLevelSubs.length > 0 ∧ pe ≠ "#" then multiLevelSubs else []
       let part2 :=
        match alookup actual "+" with
        | some w =>
          if pe ≠ "+" then SubscriptionVault.findMatchesByPath h rest (some w) else some []
        | none => some []
       let part3 :=
        if rest = [] then
          ((alookup actual pe).bind fun ca => (h.get ca).bind Node.subscriptions).getD []
        else []
       match part2 with
       | none => none
       | some p2 =>
         match SubscriptionVault.findMatchesByPath h rest (alookup actual pe) with
         | none => none
         | some tailRes => some (part1 ++ p2 ++ part3 ++ tailRes)) := by
  simp only [SubscriptionVault.findMatchesByPath, hget, hact, Option.getD_some]

/-- Claim C5 (status: confirmed).  Multi-level wildcard matching: with
`"a/#"` registered for handle `0` only, `findMatches "a/b"` and
`findMatches "a/b/c/d"` contain the handle and `findMatches "z/b"` does
not; and in general, when the node under the cursor has a `#` child holding
a non-empty subscription list and the current query segment is not the
literal `#`, those subscriptions are appended to the (successful) result at
that point of the walk. -/
theorem claim_C5_multi_level_wildcard (h : Heap) (pe : String) (rest : List String)
    (a : Nat) (nd : Node) (m res : List Subscription)
    (hget : h.get a = some nd)
    (hm : ((alookup (nd.children.getD []) "#").bind
      (fun ca => (h.get ca).bind Node.subscriptions)).getD [] = m)
    (hne : m ≠ []) (hpe : pe ≠ "#")
    (hres : SubscriptionVault.findMatchesByPath h (pe :: rest) (some a) = some res) :
    (((freshVault.add "a/#" 0).1.findMatches "a/b" = some [0]) ∧
      ((freshVault.add "a/#" 0).1.findMatches "a/b/c/d" = some [0]) ∧
      ((freshVault.add "a/#" 0).1.findMatches "z/b" = some [])) ∧
      ∃ r2, res = m ++ r2 := by
  refine ⟨⟨by decide, by decide, by decide⟩, ?_⟩
  cases hch : nd.children with
  | none =>
    rw [findMatchesByPath_childless hget hch (List.cons_ne_nil pe rest)] at hres
    exact absurd hres (by simp)
  | some actual =>
    rw [findMatchesByPath_cons h pe rest a nd actual hget hch] at hres
    rw [hch] at hm
    simp only [Option.getD_some] at hm
    simp only [hm] at hres
    rw [if_pos ⟨List.length_pos_of_ne_nil hne, hpe⟩] at hres
    split at hres
    · exact absurd hres (by simp)
    · split at hres
      · exact absurd hres (by simp)
      · cases hres
        exact ⟨_, by rw [List.append_assoc, List.append_assoc]⟩

/-- Witness for C5: the registered pattern supplies a node (address 1, the
node for segment `a`) with a `#` child holding `[0]`; instantiating the
theorem at query segment `b` with result `[0]` discharges every
hypothesis. -/
theorem claim_C5_witness :
    (((freshVault.add "a/#" 0).1.findMatches "a/b" = some [0]) ∧
      ((freshVault.add "a/#" 0).1.findMatches "a/b/c/d" = some [0]) ∧
      ((freshVault.add "a/#" 0).1.findMatches "z/b" = some [])) ∧
      ∃ r2, ([0] : List Subscription) = [0] ++ r2 :=
  claim_C5_multi_level_wildcard ((freshVault.add "a/#" 0).1.heap) "b" [] 1
    ⟨some [("#", 2)], none, some 0⟩ [0] [0] (by decide) (by decide) (by decide)
    (by decide) (by decide)

/-- Claim C6 (status: confirmed).  Single-level wildcard matching: with
`"a/+/c"` registered for handle `0` only, `findMatches "a/x/c"` and
`findMatches "a/y/c"` contain the handle and `findMatches "a/x/y/c"` does
not; and in general, when the node under the cursor has a `+` child and the
current query segment is not the literal `+`, the matcher is recursively
invoked on the remaining segments from the wildcard child and its results
are appended. -/
theorem claim_C6_single_level_wildcard (h : Heap) (pe : String) (rest : List String)
    (a : Nat) (nd : Node) (w : Nat) (res : List Subscription)
    (hget : h.get a = some nd)
    (hw : alookup (nd.children.getD []) "+" = some w)
    (hpe : pe ≠ "+")
    (hres : SubscriptionVault.findMatchesByPath h (pe :: rest) (some a) = some res) :
    (((freshVault.add "a/+/c" 0).1.findMatches "a/x/c" = some [0]) ∧
      ((freshVault.add "a/+/c" 0).1.findMatches "a/y/c" = some [0]) ∧
      ((freshVault.add "a/+/c" 0).1.findMatches "a/x/y/c" = some [])) ∧
      ∃ pre wres post, SubscriptionVault.findMatchesByPath h rest (some w) = some wres ∧
        res = pre ++ wres ++ post := by
  refine ⟨⟨by decide, by decide, by decide⟩, ?_⟩
  cases hch : nd.children with
  | none =>
    rw [findMatchesByPath_childless hget hch (List.cons_ne_nil pe rest)] at hres
    exact absurd hres (by simp)
  | some actual =>
    rw [findMatchesByPath_cons h pe rest a nd actual hget hch] at hres
    rw [hch] at hw
    simp only [Option.getD_some] at hw
    simp only [hw, if_pos hpe] at hres
    split at hres
    · exact absurd hres (by simp)
    · rename_i p2 hp2
      split at hres
      · exact absurd hres (by simp)
      · cases hres
        exact ⟨_, p2, _, hp2, by rw [List.append_assoc]⟩

/-- Witness for C6: in the tree for `"a/+/c"`, the node for `a` (address 1)
has the `+` child at address 2; instantiating at query segment `x` with
remaining path `["c"]` discharges every hypothesis. -/
theorem claim_C6_witness :
    (((freshVault.add "a/+/c" 0).1.findMatches "a/x/c" = some [0]) ∧
      ((freshVault.add "a/+/c" 0).1.findMatches "a/y/c" = some [0]) ∧
      ((freshVault.add "a/+/c" 0).1.findMatches "a/x/y/c" = some [])) ∧
      ∃ pre wres post,
        SubscriptionVault.findMatchesByPath ((freshVault.add "a/+/c" 0).1.heap) ["c"]
          (some 2) = some wres ∧ ([0] : List Subscription) = pre ++ wres ++ post :=
  claim_C6_single_level_wildcard ((freshVault.add "a/+/c" 0).1.heap) "x" ["c"] 1
    ⟨some [("+", 2)], none, some 0⟩ 2 [0] (by decide) (by decide) (by decide) (by decide)

/-- Reading back the address just written. -/
theorem Heap.get_set_self (h : Heap) (a : Nat) (nd : Node) :
    (h.set a nd).get a = some nd := by
  simp [Heap.get, Heap.set]

/-- Reading another address after a write. -/
theorem Heap.get_set_ne (h : Heap) (a b : Nat) (nd : Node) (hne : b ≠ a) :
    (h.set a nd).get b = h.get b := by
  simp [Heap.get, Heap.set, hne]

/-- Claim C8 (status: confirmed).  During `remove(t, s)`, `onTopicRemoved t`
fires whenever the terminal node's subscription list is present and empty
after the removal step — whether or not the handle `s` was found there
(the found case leaves the filtered list; the not-found case leaves the list
as it was, including a present-but-already-empty list). -/
theorem claim_C8_removed_fires (v : SubscriptionVault) (t : String) (s : Subscription)
    (c : Nat) (cn : Node)
    (hc : followPath v.heap v.subscriptionTree (SubscriptionVault.topicToPath t) = some c)
    (hcn : v.heap.get c = some cn)
    (hzero : (if s ∈ cn.subscriptions.getD [] then
        some ((cn.subscriptions.getD []).filter (· ≠ s))
      else cn.subscriptions) = some []) :
    Event.removed t ∈ (v.remove t s).2.1 := by
  rw [remove_events_eq]
  obtain ⟨q, e, hqe⟩ : ∃ q e, SubscriptionVault.topicToPath t = q ++ [e] :=
    ⟨_, _, (List.dropLast_append_getLast (topicToPath_ne_nil t)).symm⟩
  rw [hqe] at hc ⊢
  rw [followPath_append] at hc
  obtain ⟨b, hb, hbc⟩ : ∃ b, followPath v.heap v.subscriptionTree q = some b ∧
      childAt v.heap b e = some c := by
    cases hfb : followPath v.heap v.subscriptionTree q with
    | none => rw [hfb] at hc; exact absurd hc (by simp)
    | some b => rw [hfb] at hc; exact ⟨b, rfl, hc⟩
  rw [removeDown_skip s t e q v.subscriptionTree b v.heap JRef.undef hb]
  unfold childAt at hbc
  obtain ⟨bn, hbn, hlk⟩ : ∃ bn, v.heap.get b = some bn ∧
      alookup (bn.children.getD []) e = some c := by
    cases hgb : v.heap.get b with
    | none => rw [hgb] at hbc; exact absurd hbc (by simp)
    | some bn => rw [hgb] at hbc; exact ⟨bn, rfl, hbc⟩
  obtain ⟨actual, hact, hla⟩ := alookup_getD_some hlk
  by_cases hin : s ∈ cn.subscriptions.getD []
  · rw [if_pos hin] at hzero
    have hfil : (cn.subscriptions.getD []).filter (· ≠ s) = [] :=
      Option.some_injective _ hzero
    simp [SubscriptionVault.removeDown, hbn, hact, Option.getD_some, hla, hcn,
      hin, hfil, Heap.get_set_self]
    intro x hx
    simpa using List.filter_eq_nil_iff.mp hfil x hx
  · rw [if_neg hin] at hzero
    simp [SubscriptionVault.removeDown, hbn, hact, Option.getD_some, hla, hcn,
      hin, hzero]

/-- Witness for C8: after `add("q", 3)` the terminal node (address 1) holds
`[3]`; removing handle `3` empties the list, so `onTopicRemoved` fires. -/
theorem claim_C8_witness :
    Event.removed "q" ∈ ((freshVault.add "q" 3).1.remove "q" 3).2.1 :=
  claim_C8_removed_fires ((freshVault.add "q" 3).1) "q" 3 1 ⟨none, some [3], some 0⟩
    (by decide) (by decide) (by decide)

/-- The linear chain of nodes that `add` materializes along a fresh path:
each entry pairs a segment with the address of its node; every node's
`parent` is the previous node (or the chain's base `r`), every interior node
has exactly its successor as child, and the terminal node has no `children`
field and holds exactly `subs`. -/
def ChainNodes (h : Heap) (subs : List Subscription) : Nat → List (String × Nat) → Prop
  | _, [] => True
  | r, [(_, a)] => h.get a = some ⟨none, some subs, some r⟩
  | r, (_, a) :: (e', a') :: c =>
    h.get a = some ⟨some [(e', a')], none, some r⟩ ∧
      ChainNodes h subs a ((e', a') :: c)

/-- Chain addresses are strictly increasing starting above the base. -/
def StrictChain (r : Nat) (c : List (String × Nat)) : Prop :=
  List.Chain' (· < ·) (r :: c.map Prod.snd)

/-- The address of a chain's terminal node (`r` for the empty chain). -/
def chainLast (c : List (String × Nat)) (r : Nat) : Nat :=
  ((c.getLast?).map Prod.snd).getD r

/-- Addresses are never allocated at or above `next`. -/
def Bounded (h : Heap) : Prop :=
  ∀ x, h.next ≤ x → h.get x = none

/-- Reading an address below `next` after an allocation. -/
theorem Heap.get_alloc_ne (h : Heap) (nd : Node) (b : Nat) (hb : b ≠ h.next) :
    (h.alloc nd).2.get b = h.get b := by
  simp [Heap.get, Heap.alloc, hb]

/-- Reading the freshly allocated address. -/
theorem Heap.get_alloc_self (h : Heap) (nd : Node) :
    (h.alloc nd).2.get h.next = some nd := by
  simp [Heap.get, Heap.alloc]

/-- `addLoop` on a path whose first segment is absent from the current
node's children allocates a fresh chain of consecutive addresses, reports
the topic as added, and touches nothing else. -/
theorem addLoop_fresh (s : Subscription) (t : String) :
    ∀ (rest : List String) (pe : String) (a : Nat) (h : Heap) (nd : Node),
      h.get a = some nd →
      alookup (nd.children.getD []) pe = none →
      Bounded h →
      a < h.next →
      ∃ c : List (String × Nat),
        SubscriptionVault.addLoop s t (pe :: rest) a h =
          ((SubscriptionVault.addLoop s t (pe :: rest) a h).1, [Event.added t]) ∧
        c.map Prod.fst = pe :: rest ∧
        c.map Prod.snd = List.range' h.next (rest.length + 1) ∧
        ChainNodes (SubscriptionVault.addLoop s t (pe :: rest) a h).1 [s] a c ∧
        (SubscriptionVault.addLoop s t (pe :: rest) a h).1.get a =
          some { nd with children := some (aset (nd.children.getD []) pe h.next) } ∧
        (∀ b, b ≠ a → b < h.next →
          (SubscriptionVault.addLoop s t (pe :: rest) a h).1.get b = h.get b) ∧
        (SubscriptionVault.addLoop s t (pe :: rest) a h).1.next =
          h.next + (rest.length + 1) ∧
        Bounded (SubscriptionVault.addLoop s t (pe :: rest) a h).1 := by
  intro rest
  induction rest with
  | nil =>
    intro pe a h nd hget hnone hbd hlt
    refine ⟨[(pe, h.next)], ?_⟩
    have hne : a ≠ h.next := Nat.ne_of_lt hlt
    have hstep : SubscriptionVault.addLoop s t [pe] a h =
        (((h.alloc ⟨none, none, some a⟩).2.set a
            { nd with children := some (aset (nd.children.getD []) pe h.next) }).set h.next
          ⟨none, some [s], some a⟩, [Event.added t]) := by
      simp only [SubscriptionVault.addLoop, hget, hnone, Option.getD_none, Heap.alloc]
      simp only [if_true]
      have hg2 : (Heap.set ⟨fun x => if x = h.next then some ⟨none, none, some a⟩ else h.mem x,
          h.next + 1⟩ a { nd with children := some (aset (nd.children.getD []) pe h.next) }).get
          h.next = some ⟨none, none, some a⟩ := by
        simp [Heap.get, Heap.set, hne.symm]
      rw [hg2]
      rfl
    rw [hstep]
    refine ⟨rfl, by simp, by simp, ?_, ?_, ?_, by simp [Heap.set, Heap.alloc], ?_⟩
    · show Heap.get _ h.next = _
      dsimp only
      rw [Heap.get_set_self]
    · dsimp only
      rw [Heap.get_set_ne _ h.next a _ hne, Heap.get_set_self]
    · intro b hba hblt
      dsimp only
      have hbn : b ≠ h.next := Nat.ne_of_lt hblt
      rw [Heap.get_set_ne _ _ _ _ hbn, Heap.get_set_ne _ _ _ _ hba, Heap.get_alloc_ne _ _ _ hbn]
    · intro x hx
      dsimp only at hx ⊢
      have hx1 : x ≠ h.next := by
        simp only [Heap.set, Heap.alloc] at hx
        omega
      have hx2 : x ≠ a := by
        simp only [Heap.set, Heap.alloc] at hx
        omega
      rw [Heap.get_set_ne _ _ _ _ hx1, Heap.get_set_ne _ _ _ _ hx2,
        Heap.get_alloc_ne _ _ _ hx1]
      apply hbd
      simp only [Heap.set, Heap.alloc] at hx
      omega
  | cons e' rest' ih =>
    intro pe a h nd hget hnone hbd hlt
    have hne : a ≠ h.next := Nat.ne_of_lt hlt
    set h2 : Heap := (h.alloc ⟨none, none, some a⟩).2.set a
      { nd with children := some (aset (nd.children.getD []) pe h.next) } with hh2
    have hstep : SubscriptionVault.addLoop s t (pe :: e' :: rest') a h =
        SubscriptionVault.addLoop s t (e' :: rest') h.next h2 := by
      simp only [SubscriptionVault.addLoop, hget, hnone, Option.getD_none, Heap.alloc]
      rw [if_neg (by simp)]
      rfl
    have hg2 : h2.get h.next = some ⟨none, none, some a⟩ := by
      rw [hh2, Heap.get_set_ne _ _ _ _ hne.symm, Heap.get_alloc_self]
    have hn2 : h2.next = h.next + 1 := by simp [hh2, Heap.set, Heap.alloc]
    have hbd2 : Bounded h2 := by
      intro x hx
      rw [hn2] at hx
      have hx1 : x ≠ h.next := by omega
      have hx2 : x ≠ a := by omega
      rw [hh2, Heap.get_set_ne _ _ _ _ hx2, Heap.get_alloc_ne _ _ _ hx1]
      exact hbd x (by omega)
    have hlt2 : h.next < h2.next := by
      simp [hh2, Heap.set, Heap.alloc]
    obtain ⟨c', heq, hfst, hsnd, hchain, hroot, hframe, hnext, hbd'⟩ :=
      ih e' h.next h2 ⟨none, none, some a⟩ hg2 (by simp [alookup]) hbd2 hlt2
    refine ⟨(pe, h.next) :: c', ?_, ?_, ?_, ?_, ?_, ?_, ?_, ?_⟩
    · rw [hstep]; exact heq
    · simp [hfst]
    · show h.next :: c'.map Prod.snd = List.range' h.next ((e' :: rest').length + 1)
      rw [hsnd, hn2, List.length_cons]
      simp [List.range'_succ]
    · rw [hstep]
      cases c' with
      | nil => exact absurd hfst (by simp)
      | cons hd tl =>
        obtain ⟨hde, hda⟩ := hd
        have hhd1 : hde = e' := by
          have h1 := congrArg List.head? hfst
          simpa using h1
        have hhd2 : hda = h.next + 1 := by
          have h1 := congrArg List.head? hsnd
          rw [hn2] at h1
          simpa [List.range'_succ] using h1
        subst hhd1
        subst hhd2
        refine ⟨?_, hchain⟩
        rw [hroot]
        simp [aset, hn2]
    · rw [hstep]
      rw [hframe a hne (lt_trans hlt hlt2)]
      rw [hh2, Heap.get_set_self]
    · intro b hba hblt
      rw [hstep]
      have hbn : b ≠ h.next := Nat.ne_of_lt hblt
      rw [hframe b hbn (lt_trans hblt hlt2)]
      rw [hh2, Heap.get_set_ne _ _ _ _ hba, Heap.get_alloc_ne _ _ _ hbn]
    · rw [hstep, hnext, hn2, List.length_cons]
      omega
    · rw [hstep]; exact hbd'

/-- Re-assigning the binding a key already has leaves the object unchanged. -/
theorem aset_eq_of_lookup : ∀ (l : List (String × Nat)) (k : String) (v : Nat),
    alookup l k = some v → aset l k v = l := by
  intro l
  induction l with
  | nil => intro k v hl; exact absurd hl (by simp [alookup])
  | cons hd tl ih =>
    intro k v hl
    obtain ⟨k', v'⟩ := hd
    by_cases hk : k' = k
    · subst hk
      simp only [alookup, if_pos rfl] at hl
      cases hl
      simp [aset]
    · simp only [alookup, if_neg hk] at hl
      simp only [aset, if_neg hk]
      rw [ih k v hl]

/-- Writing back the object already stored at an address is a no-op. -/
theorem Heap.set_get_self (h : Heap) (a : Nat) (nd : Node) (hget : h.get a = some nd) :
    h.set a nd = h := by
  cases h with
  | mk mem next =>
    simp only [Heap.set, Heap.mk.injEq, and_true]
    funext x
    by_cases hx : x = a
    · subst hx
      rw [if_pos rfl]
      exact hget.symm
    · simp [hx]

/-- `set` does not move the allocation pointer. -/
theorem Heap.next_set (h : Heap) (a : Nat) (nd : Node) : (h.set a nd).next = h.next := rfl

/-- The head of a strictly increasing list is not in its tail. -/
theorem strict_head_notin {x : Nat} {l : List Nat} (hc : List.Chain' (· < ·) (x :: l)) :
    x ∉ l := by
  rw [List.chain'_iff_pairwise] at hc
  intro hx
  exact absurd (List.rel_of_pairwise_cons hc hx) (lt_irrefl x)

/-- `addLoop` along a fully existing chain only appends the subscription to
the terminal node; `onTopicAdded` fires exactly when the terminal list was
empty. -/
theorem addLoop_chain (s : Subscription) (t : String) :
    ∀ (c' : List (String × Nat)) (e0 : String) (a0 : Nat) (subs : List Subscription)
      (r : Nat) (h : Heap) (nd : Node),
      ChainNodes h subs r ((e0, a0) :: c') →
      h.get r = some nd →
      alookup (nd.children.getD []) e0 = some a0 →
      StrictChain r ((e0, a0) :: c') →
      ∃ h2,
        SubscriptionVault.addLoop s t (((e0, a0) :: c').map Prod.fst) r h =
          (h2, if subs.length = 0 then [Event.added t] else []) ∧
        ChainNodes h2 (subs ++ [s]) r ((e0, a0) :: c') ∧
        (∀ b, b ∉ ((e0, a0) :: c').map Prod.snd → h2.get b = h.get b) ∧
        h2.next = h.next := by
  intro c'
  induction c' with
  | nil =>
    intro e0 a0 subs r h nd hchain hget hlk hstrict
    have hterm : h.get a0 = some ⟨none, some subs, some r⟩ := hchain
    obtain ⟨actual, hact, hla⟩ := alookup_getD_some hlk
    have hndeq : { nd with children := some (aset (nd.children.getD []) e0 a0) } = nd := by
      rw [hact]
      simp only [Option.getD_some]
      rw [aset_eq_of_lookup _ _ _ hla]
      cases nd
      simp only [Node.mk.injEq, and_true, true_and]
      simp only [Node.children] at hact
      exact hact.symm
    refine ⟨h.set a0 ⟨none, some (subs ++ [s]), some r⟩, ?_, ?_, ?_, rfl⟩
    · simp only [List.map_cons, List.map_nil, SubscriptionVault.addLoop, hget, hlk, hndeq,
        Heap.set_get_self h r nd hget, hterm, Option.some_bind, Option.getD_some, if_true]
    · show Heap.get _ a0 = _
      rw [Heap.get_set_self]
    · intro b hb
      simp only [List.map_cons, List.map_nil, List.mem_singleton] at hb
      rw [Heap.get_set_ne _ _ _ _ hb]
  | cons hd1 c'' ih =>
    intro e0 a0 subs r h nd hchain hget hlk hstrict
    obtain ⟨e1, a1⟩ := hd1
    obtain ⟨hhead, htail⟩ := hchain
    obtain ⟨actual, hact, hla⟩ := alookup_getD_some hlk
    have hndeq : { nd with children := some (aset (nd.children.getD []) e0 a0) } = nd := by
      rw [hact]
      simp only [Option.getD_some]
      rw [aset_eq_of_lookup _ _ _ hla]
      cases nd
      simp only [Node.mk.injEq, and_true, true_and]
      simp only [Node.children] at hact
      exact hact.symm
    have hstrict' : StrictChain a0 ((e1, a1) :: c'') := by
      exact List.Chain'.tail hstrict
    obtain ⟨h2, heq, hchain2, hframe, hnext⟩ :=
      ih e1 a1 subs a0 h ⟨some [(e1, a1)], none, some r⟩ htail hhead (by simp [alookup]) hstrict'
    have hstep : SubscriptionVault.addLoop s t (((e0, a0) :: (e1, a1) :: c'').map Prod.fst) r h =
        SubscriptionVault.addLoop s t (((e1, a1) :: c'').map Prod.fst) a0 h := by
      simp only [List.map_cons, SubscriptionVault.addLoop, hget, hlk, hndeq,
        Heap.set_get_self h r nd hget]
      rw [if_neg (by simp)]
    have ha0notin : a0 ∉ ((e1, a1) :: c'').map Prod.snd := by
      have := List.Chain'.tail hstrict
      exact strict_head_notin this
    refine ⟨h2, ?_, ⟨?_, hchain2⟩, ?_, hnext⟩
    · rw [hstep]
      exact heq
    · rw [hframe a0 ha0notin]
      exact hhead
    · intro b hb
      simp only [List.map_cons, List.mem_cons] at hb
      push_neg at hb
      exact hframe b (by simp only [List.map_cons, List.mem_cons]; push_neg; exact hb.2)

/-- The terminal address of a chain does not depend on the default base once
the chain has at least the leading two entries removedly fixed. -/
theorem chainLast_cons_cons (e0 : String) (a0 : Nat) (hd : String × Nat)
    (c : List (String × Nat)) (r x : Nat) :
    chainLast ((e0, a0) :: hd :: c) r = chainLast (hd :: c) x := by
  unfold chainLast
  rw [List.getLast?_cons_cons]
  cases hlast : (hd :: c).getLast? with
  | none => exact absurd hlast (by simp)
  | some p => simp

/-- The downward pass of `remove` along an existing chain: it removes the
handle from the terminal node when present (reporting a diagnostic when
not), fires `onTopicRemoved` exactly when the terminal list ends up empty,
caches the terminal node as `nextNode`, does not throw, and leaves every
non-terminal node unchanged. -/
theorem removeDown_chain (s : Subscription) (t : String) :
    ∀ (c' : List (String × Nat)) (e0 : String) (a0 : Nat) (subs : List Subscription)
      (r : Nat) (h : Heap) (nd : Node) (nn : JRef),
      ChainNodes h subs r ((e0, a0) :: c') →
      h.get r = some nd →
      alookup (nd.children.getD []) e0 = some a0 →
      StrictChain r ((e0, a0) :: c') →
      ∃ tPar h2,
        SubscriptionVault.removeDown s t (((e0, a0) :: c').map Prod.fst) (some r) nn h =
          (h2,
           (if s ∈ subs then [] else [Event.notFound t s]) ++
             (if (if s ∈ subs then subs.filter (· ≠ s) else subs) = []
              then [Event.removed t] else []),
           JRef.addr (chainLast ((e0, a0) :: c') r), false) ∧
        h2 = (if s ∈ subs then
            h.set (chainLast ((e0, a0) :: c') r)
              ⟨none, some (subs.filter (· ≠ s)), some tPar⟩
          else h) ∧
        ChainNodes h2 (if s ∈ subs then subs.filter (· ≠ s) else subs) r ((e0, a0) :: c') ∧
        (∀ b, b ∉ ((e0, a0) :: c').map Prod.snd → h2.get b = h.get b) ∧
        h2.next = h.next := by
  intro c'
  induction c' with
  | nil =>
    intro e0 a0 subs r h nd nn hchain hget hlk hstrict
    have hterm : h.get a0 = some ⟨none, some subs, some r⟩ := hchain
    obtain ⟨actual, hact, hla⟩ := alookup_getD_some hlk
    have hlastr : chainLast [(e0, a0)] r = a0 := by simp [chainLast]
    rw [hlastr]
    by_cases hin : s ∈ subs
    · refine ⟨r, h.set a0 ⟨none, some (subs.filter (· ≠ s)), some r⟩, ?_, by rw [if_pos hin],
        ?_, ?_, rfl⟩
      · simp only [List.map_cons, List.map_nil, SubscriptionVault.removeDown, hget, hact,
          Option.getD_some, hla, hterm, Option.some_bind, if_pos hin, if_true,
          Heap.get_set_self, Option.map_some, List.append_nil]
        by_cases hpost : subs.filter (· ≠ s) = []
        · rw [if_pos hpost, if_pos (by rw [hpost]; rfl)]
        · rw [if_neg hpost, if_neg (by simpa using hpost)]
      · show Heap.get _ a0 = _
        rw [if_pos hin, Heap.get_set_self]
      · intro b hb
        simp only [List.map_cons, List.map_nil, List.mem_singleton] at hb
        rw [Heap.get_set_ne _ _ _ _ hb]
    · refine ⟨r, h, ?_, by rw [if_neg hin], ?_, fun b _ => rfl, rfl⟩
      · simp only [List.map_cons, List.map_nil, SubscriptionVault.removeDown, hget, hact,
          Option.getD_some, hla, hterm, Option.some_bind, if_neg hin, if_true,
          Option.map_some, List.append_nil]
        by_cases hpost : subs = []
        · rw [if_pos hpost, if_pos (by rw [hpost]; rfl)]
        · rw [if_neg hpost, if_neg (by simpa using hpost)]
      · rw [if_neg hin]
        exact hchain
  | cons hd1 c'' ih =>
    intro e0 a0 subs r h nd nn hchain hget hlk hstrict
    obtain ⟨e1, a1⟩ := hd1
    obtain ⟨hhead, htail⟩ := hchain
    obtain ⟨actual, hact, hla⟩ := alookup_getD_some hlk
    have hstrict' : StrictChain a0 ((e1, a1) :: c'') := List.Chain'.tail hstrict
    obtain ⟨tPar, h2, heq, hh2, hchain2, hframe, hnext⟩ :=
      ih e1 a1 subs a0 h ⟨some [(e1, a1)], none, some r⟩ (JRef.addr a0) htail hhead
        (by simp [alookup]) hstrict'
    have hlasteq : chainLast ((e0, a0) :: (e1, a1) :: c'') r = chainLast ((e1, a1) :: c'') a0 :=
      chainLast_cons_cons e0 a0 (e1, a1) c'' r a0
    have hstep : SubscriptionVault.removeDown s t
        (((e0, a0) :: (e1, a1) :: c'').map Prod.fst) (some r) nn h =
        SubscriptionVault.removeDown s t (((e1, a1) :: c'').map Prod.fst) (some a0)
          (JRef.addr a0) h := by
      have key : SubscriptionVault.removeDown s t
          (e0 :: ((e1, a1) :: c'').map Prod.fst) (some r) nn h =
          (let q := SubscriptionVault.removeDown s t (((e1, a1) :: c'').map Prod.fst)
            (some a0) (JRef.addr a0) h
           (q.1, [] ++ q.2.1, q.2.2.1, q.2.2.2)) := by
        simp only [SubscriptionVault.removeDown, hget, hact, Option.getD_some, hla,
          if_neg (show ¬ ((e1, a1) :: c'').map Prod.fst = [] by simp)]
      rw [List.map_cons, key]
      generalize SubscriptionVault.removeDown s t (((e1, a1) :: c'').map Prod.fst)
        (some a0) (JRef.addr a0) h = q
      obtain ⟨q1, q2, q3, q4⟩ := q
      simp
    have ha0notin : a0 ∉ ((e1, a1) :: c'').map Prod.snd :=
      strict_head_notin (List.Chain'.tail hstrict)
    refine ⟨tPar, h2, ?_, ?_, ⟨?_, hchain2⟩, ?_, hnext⟩
    · rw [hstep, hlasteq]
      exact heq
    · rw [hlasteq]
      exact hh2
    · rw [hframe a0 ha0notin]
      exact hhead
    · intro b hb
      simp only [List.map_cons, List.mem_cons] at hb
      push_neg at hb
      exact hframe b (by simp only [List.map_cons, List.mem_cons]; push_neg; exact hb.2)

/-- The upward pass walks a chain whose terminal still has subscriptions
without modifying anything: every chain node is non-empty, so no deletion
fires, and after consuming the reversed chain segments the cursor stands on
the chain's base. -/
theorem removeUp_chain_keep (h : Heap) (subs : List Subscription) (hsub : subs ≠ []) :
    ∀ (c' : List (String × Nat)) (e0 : String) (a0 : Nat) (r : Nat),
      ChainNodes h subs r ((e0, a0) :: c') →
      ∀ k, SubscriptionVault.removeUp ((((e0, a0) :: c').map Prod.fst).reverse ++ k)
          (JRef.addr (chainLast ((e0, a0) :: c') r)) h =
        SubscriptionVault.removeUp k (JRef.addr r) h := by
  intro c'
  induction c' with
  | nil =>
    intro e0 a0 r hchain k
    have hterm : h.get a0 = some ⟨none, some subs, some r⟩ := hchain
    have hlastr : chainLast [(e0, a0)] r = a0 := by simp [chainLast]
    rw [hlastr]
    show SubscriptionVault.removeUp (e0 :: k) (JRef.addr a0) h = _
    simp only [SubscriptionVault.removeUp, hterm]
    rw [if_neg (by simp [hsub])]
  | cons hd1 c'' ih =>
    intro e0 a0 r hchain k
    obtain ⟨e1, a1⟩ := hd1
    obtain ⟨hhead, htail⟩ := hchain
    have hlasteq : chainLast ((e0, a0) :: (e1, a1) :: c'') r = chainLast ((e1, a1) :: c'') a0 :=
      chainLast_cons_cons e0 a0 (e1, a1) c'' r a0
    have hlist : ((((e0, a0) :: (e1, a1) :: c'').map Prod.fst).reverse ++ k) =
        ((((e1, a1) :: c'').map Prod.fst).reverse ++ (e0 :: k)) := by
      simp [List.reverse_cons, List.append_assoc]
    rw [hlasteq, hlist, ih e1 a1 a0 htail (e0 :: k)]
    simp only [SubscriptionVault.removeUp, hhead]
    rw [if_neg (by simp)]

/-- The upward pass prunes a chain whose terminal subscription list is
present and empty: every chain node is deleted bottom-up, the chain's
leading segment is finally deleted from the base node's children, and the
walk continues from the base.  Chain nodes other than the base keep their
(now unreachable) objects; nothing outside the chain and base changes. -/
theorem removeUp_chain_prune :
    ∀ (c' : List (String × Nat)) (e0 : String) (a0 : Nat) (r : Nat) (h : Heap)
      (rn : Node) (rcs : List (String × Nat)),
      ChainNodes h [] r ((e0, a0) :: c') →
      StrictChain r ((e0, a0) :: c') →
      h.get r = some rn →
      rn.children = some rcs →
      ∀ k, ∃ h2,
        SubscriptionVault.removeUp ((((e0, a0) :: c').map Prod.fst).reverse ++ k)
          (JRef.addr (chainLast ((e0, a0) :: c') r)) h =
          SubscriptionVault.removeUp k (JRef.addr r) h2 ∧
        h2.get r = some { rn with children := some (adel rcs e0) } ∧
        (∀ b, b ∉ ((e0, a0) :: c').map Prod.snd → b ≠ r → h2.get b = h.get b) ∧
        h2.next = h.next := by
  intro c'
  induction c' with
  | nil =>
    intro e0 a0 r h rn rcs hchain hstrict hr hrcs k
    have hterm : h.get a0 = some ⟨none, some [], some r⟩ := hchain
    have hlastr : chainLast [(e0, a0)] r = a0 := by simp [chainLast]
    rw [hlastr]
    refine ⟨h.set r { rn with children := some (adel rcs e0) }, ?_, ?_, ?_, rfl⟩
    · show SubscriptionVault.removeUp (e0 :: k) (JRef.addr a0) h = _
      simp only [SubscriptionVault.removeUp, hterm]
      rw [if_pos (by simp)]
      simp only [hr, hrcs]
    · rw [Heap.get_set_self]
    · intro b hb hbr
      rw [Heap.get_set_ne _ _ _ _ hbr]
  | cons hd1 c'' ih =>
    intro e0 a0 r h rn rcs hchain hstrict hr hrcs k
    obtain ⟨e1, a1⟩ := hd1
    obtain ⟨hhead, htail⟩ := hchain
    have hlasteq : chainLast ((e0, a0) :: (e1, a1) :: c'') r = chainLast ((e1, a1) :: c'') a0 :=
      chainLast_cons_cons e0 a0 (e1, a1) c'' r a0
    have hlist : ((((e0, a0) :: (e1, a1) :: c'').map Prod.fst).reverse ++ k) =
        ((((e1, a1) :: c'').map Prod.fst).reverse ++ (e0 :: k)) := by
      simp [List.reverse_cons, List.append_assoc]
    have hstrict' : StrictChain a0 ((e1, a1) :: c'') := List.Chain'.tail hstrict
    obtain ⟨h2', heq, hget2, hframe2, hnext2⟩ :=
      ih e1 a1 a0 h ⟨some [(e1, a1)], none, some r⟩ [(e1, a1)] htail hstrict' hhead rfl (e0 :: k)
    have hrnotin : r ∉ ((e0, a0) :: (e1, a1) :: c'').map Prod.snd :=
      strict_head_notin hstrict
    have hrtail : r ∉ ((e1, a1) :: c'').map Prod.snd := by
      intro hmem
      exact hrnotin (List.mem_cons_of_mem _ hmem)
    have hrnea0 : r ≠ a0 := by
      intro hre
      exact hrnotin (by simp [hre])
    have hget2a : h2'.get a0 = some ⟨some [], none, some r⟩ := by
      rw [hget2]
      simp [adel]
    have hget2r : h2'.get r = some rn := by
      rw [hframe2 r hrtail hrnea0]
      exact hr
    refine ⟨h2'.set r { rn with children := some (adel rcs e0) }, ?_, ?_, ?_, ?_⟩
    · rw [hlasteq, hlist, heq]
      simp only [SubscriptionVault.removeUp, hget2a]
      rw [if_pos (by simp)]
      simp only [hget2r, hrcs]
    · rw [Heap.get_set_self]
    · intro b hb hbr
      simp only [List.map_cons, List.mem_cons] at hb
      push_neg at hb
      rw [Heap.get_set_ne _ _ _ _ hbr]
      exact hframe2 b (by simp only [List.map_cons, List.mem_cons]; push_neg; exact hb.2) hb.1
    · rw [Heap.next_set, hnext2]

/-- Walking any path from a node with a present-but-empty children map (and
no subscriptions read at this node) finds nothing and halts cleanly. -/
theorem findMatchesByPath_empty_children {h : Heap} {a : Nat} {nd : Node}
    (hget : h.get a = some nd) (hch : nd.children = some []) :
    ∀ p, SubscriptionVault.findMatchesByPath h p (some a) = some [] := by
  intro p
  cases p with
  | nil => rfl
  | cons pe rest =>
    rw [findMatchesByPath_cons h pe rest a nd [] hget hch]
    simp only [alookup]
    cases rest <;> rfl

/-- A cons of a consecutive address range is strictly increasing. -/
theorem chain'_lt_cons_range' :
    ∀ (n r : Nat), List.Chain' (· < ·) (r :: List.range' (r + 1) n) := by
  intro n
  induction n with
  | zero => intro r; simp
  | succ m ih =>
    intro r
    rw [List.range'_succ]
    rw [List.chain'_cons]
    exact ⟨Nat.lt_succ_self r, ih (r + 1)⟩

/-- The state reached by a first `add` on a fresh vault: a single fresh
chain hanging off the root, holding exactly the added subscription, with
`onTopicAdded` fired once. -/
theorem add_fresh_chain (t : String) (s : Subscription) :
    ∃ (e0 : String) (a0 : Nat) (c' : List (String × Nat)),
      SubscriptionVault.topicToPath t = ((e0, a0) :: c').map Prod.fst ∧
      (freshVault.add t s).2 = [Event.added t] ∧
      (freshVault.add t s).1.subscriptionTree = 0 ∧
      (freshVault.add t s).1.heap.get 0 = some ⟨some [(e0, a0)], none, none⟩ ∧
      ChainNodes (freshVault.add t s).1.heap [s] 0 ((e0, a0) :: c') ∧
      StrictChain 0 ((e0, a0) :: c') := by
  obtain ⟨pe, rest, hp⟩ : ∃ pe rest, SubscriptionVault.topicToPath t = pe :: rest := by
    cases hp : SubscriptionVault.topicToPath t with
    | nil => exact absurd hp (topicToPath_ne_nil t)
    | cons pe rest => exact ⟨pe, rest, rfl⟩
  have hget0 : freshVault.heap.get 0 = some ⟨none, none, none⟩ := rfl
  have hbd : Bounded freshVault.heap := by
    intro x hx
    have : x ≠ 0 := by
      change 1 ≤ x at hx
      omega
    simp [freshVault, SubscriptionVault.construct, Heap.empty, Heap.alloc, Heap.get, this]
  obtain ⟨c, heq, hfst, hsnd, hchain, hroot, hframe, hnext, hbd'⟩ :=
    addLoop_fresh s t rest pe 0 freshVault.heap ⟨none, none, none⟩ hget0
      (by simp [alookup]) hbd (by change 0 < 1; omega)
  cases c with
  | nil => exact absurd hfst (by simp)
  | cons hd c' =>
    obtain ⟨e0, a0⟩ := hd
    have he0 : e0 = pe := by
      have h1 := congrArg List.head? hfst
      simpa using h1
    have ha0 : a0 = 1 := by
      have h1 := congrArg List.head? hsnd
      have hnext1 : freshVault.heap.next = 1 := rfl
      rw [hnext1] at h1
      simp only [List.map_cons, List.head?_cons] at h1
      rw [List.range'_succ] at h1
      simpa using h1
    have hadd : freshVault.add t s =
        (⟨(SubscriptionVault.addLoop s t (pe :: rest) 0 freshVault.heap).1, 0⟩,
          [Event.added t]) := by
      unfold SubscriptionVault.add
      have h0 : freshVault.subscriptionTree = 0 := rfl
      rw [hp, h0, heq]
    refine ⟨e0, a0, c', by rw [hp]; exact hfst.symm, by rw [hadd], by rw [hadd], ?_, ?_, ?_⟩
    · rw [hadd]
      show (SubscriptionVault.addLoop s t (pe :: rest) 0 freshVault.heap).1.get 0 = _
      rw [hroot, he0, ha0]
      rfl
    · rw [hadd]
      exact hchain
    · unfold StrictChain
      rw [hsnd]
      have hnext1 : freshVault.heap.next = 1 := rfl
      rw [hnext1]
      exact chain'_lt_cons_range' (rest.length + 1) 0

/-- `add` on a vault holding exactly one chain appends to the terminal
subscription list, firing `onTopicAdded` only from an empty list; the chain
shape is preserved. -/
theorem add_chain_vault (t : String) (s : Subscription) (subs : List Subscription)
    (v : SubscriptionVault) (e0 : String) (a0 : Nat) (c' : List (String × Nat))
    (hroot : v.subscriptionTree = 0)
    (hpath : SubscriptionVault.topicToPath t = ((e0, a0) :: c').map Prod.fst)
    (hget : v.heap.get 0 = some ⟨some [(e0, a0)], none, none⟩)
    (hchain : ChainNodes v.heap subs 0 ((e0, a0) :: c'))
    (hstrict : StrictChain 0 ((e0, a0) :: c')) :
    (v.add t s).2 = (if subs.length = 0 then [Event.added t] else []) ∧
    (v.add t s).1.subscriptionTree = 0 ∧
    (v.add t s).1.heap.get 0 = some ⟨some [(e0, a0)], none, none⟩ ∧
    ChainNodes (v.add t s).1.heap (subs ++ [s]) 0 ((e0, a0) :: c') ∧
    StrictChain 0 ((e0, a0) :: c') := by
  obtain ⟨h2, heq, hchain2, hframe2, hnext2⟩ :=
    addLoop_chain s t c' e0 a0 subs 0 v.heap ⟨some [(e0, a0)], none, none⟩ hchain hget
      (by simp [alookup]) hstrict
  have hadd : v.add t s = (⟨h2, 0⟩, if subs.length = 0 then [Event.added t] else []) := by
    unfold SubscriptionVault.add
    rw [hpath, hroot, heq]
  have h0notin : 0 ∉ ((e0, a0) :: c').map Prod.snd := strict_head_notin hstrict
  refine ⟨by rw [hadd], by rw [hadd], ?_, ?_, hstrict⟩
  · rw [hadd]
    show h2.get 0 = _
    rw [hframe2 0 h0notin]
    exact hget
  · rw [hadd]
    exact hchain2

/-- `remove` of a present handle whose removal leaves other subscribers:
no events, no throw, chain preserved with the handle filtered out. -/
theorem remove_chain_vault (t : String) (s : Subscription) (subs : List Subscription)
    (v : SubscriptionVault) (e0 : String) (a0 : Nat) (c' : List (String × Nat))
    (hroot : v.subscriptionTree = 0)
    (hpath : SubscriptionVault.topicToPath t = ((e0, a0) :: c').map Prod.fst)
    (hget : v.heap.get 0 = some ⟨some [(e0, a0)], none, none⟩)
    (hchain : ChainNodes v.heap subs 0 ((e0, a0) :: c'))
    (hstrict : StrictChain 0 ((e0, a0) :: c'))
    (hin : s ∈ subs) (hkeep : subs.filter (· ≠ s) ≠ []) :
    (v.remove t s).2 = ([], false) ∧
    (v.remove t s).1.subscriptionTree = 0 ∧
    (v.remove t s).1.heap.get 0 = some ⟨some [(e0, a0)], none, none⟩ ∧
    ChainNodes (v.remove t s).1.heap (subs.filter (· ≠ s)) 0 ((e0, a0) :: c') ∧
    StrictChain 0 ((e0, a0) :: c') := by
  obtain ⟨tPar, h3, heq3, hh3, hchain3, hframe3, hnext3⟩ :=
    removeDown_chain s t c' e0 a0 subs 0 v.heap ⟨some [(e0, a0)], none, none⟩ JRef.undef
      hchain hget (by simp [alookup]) hstrict
  rw [if_pos hin] at hchain3
  have hup := removeUp_chain_keep h3 (subs.filter (· ≠ s)) hkeep c' e0 a0 0 hchain3 []
  rw [List.append_nil] at hup
  have hrem : v.remove t s = (⟨h3, 0⟩, [], false) := by
    unfold SubscriptionVault.remove
    rw [hpath, hroot]
    simp only [heq3, if_pos hin, if_neg hkeep, List.nil_append, Bool.false_eq_true,
      if_false, hup, SubscriptionVault.removeUp]
  have h0notin : 0 ∉ ((e0, a0) :: c').map Prod.snd := strict_head_notin hstrict
  refine ⟨by rw [hrem], by rw [hrem], ?_, ?_, hstrict⟩
  · rw [hrem]
    show h3.get 0 = _
    rw [hframe3 0 h0notin]
    exact hget
  · rw [hrem]
    exact hchain3

/-- `remove` of the last subscriber: `onTopicRemoved` fires once, the walk
does not throw, and the upward pass prunes the whole chain, leaving the
root with a present and empty children map. -/
theorem remove_chain_vault_last (t : String) (s : Subscription) (subs : List Subscription)
    (v : SubscriptionVault) (e0 : String) (a0 : Nat) (c' : List (String × Nat))
    (hroot : v.subscriptionTree = 0)
    (hpath : SubscriptionVault.topicToPath t = ((e0, a0) :: c').map Prod.fst)
    (hget : v.heap.get 0 = some ⟨some [(e0, a0)], none, none⟩)
    (hchain : ChainNodes v.heap subs 0 ((e0, a0) :: c'))
    (hstrict : StrictChain 0 ((e0, a0) :: c'))
    (hin : s ∈ subs) (hempty : subs.filter (· ≠ s) = []) :
    (v.remove t s).2 = ([Event.removed t], false) ∧
    (v.remove t s).1.subscriptionTree = 0 ∧
    (v.remove t s).1.heap.get 0 = some ⟨some [], none, none⟩ := by
  obtain ⟨tPar, h3, heq3, hh3, hchain3, hframe3, hnext3⟩ :=
    removeDown_chain s t c' e0 a0 subs 0 v.heap ⟨some [(e0, a0)], none, none⟩ JRef.undef
      hchain hget (by simp [alookup]) hstrict
  rw [if_pos hin, hempty] at hchain3
  have h0notin : 0 ∉ ((e0, a0) :: c').map Prod.snd := strict_head_notin hstrict
  have hget3 : h3.get 0 = some ⟨some [(e0, a0)], none, none⟩ := by
    rw [hframe3 0 h0notin]
    exact hget
  obtain ⟨h5, hup, hget5, hframe5, hnext5⟩ :=
    removeUp_chain_prune c' e0 a0 0 h3 ⟨some [(e0, a0)], none, none⟩ [(e0, a0)]
      hchain3 hstrict hget3 rfl []
  rw [List.append_nil] at hup
  have hrem : v.remove t s = (⟨h5, 0⟩, [Event.removed t], false) := by
    unfold SubscriptionVault.remove
    rw [hpath, hroot]
    simp only [heq3, if_pos hin, if_pos hempty, List.nil_append, Bool.false_eq_true,
      if_false, hup, SubscriptionVault.removeUp]
  refine ⟨by rw [hrem], by rw [hrem], ?_⟩
  rw [hrem]
  show h5.get 0 = _
  rw [hget5]
  simp [adel]

/-- Claim C3 (status: confirmed).  Exactly-once lifecycle notification: for
any topic and distinct handles, the first `add` fires `onTopicAdded` once
and the second fires nothing; the first `remove` fires nothing and the
second (last) fires `onTopicRemoved` once.  Neither `remove` throws. -/
theorem claim_C3_exactly_once (t : String) (s1 s2 : Subscription) (hs : s1 ≠ s2) :
    (freshVault.add t s1).2 = [Event.added t] ∧
    ((freshVault.add t s1).1.add t s2).2 = [] ∧
    (((freshVault.add t s1).1.add t s2).1.remove t s1).2 = ([], false) ∧
    ((((freshVault.add t s1).1.add t s2).1.remove t s1).1.remove t s2).2 =
      ([Event.removed t], false) := by
  obtain ⟨e0, a0, c', hpath, hev1, hroot1, hget1, hchain1, hstrict⟩ := add_fresh_chain t s1
  obtain ⟨hev2, hroot2, hget2, hchain2, -⟩ :=
    add_chain_vault t s2 [s1] (freshVault.add t s1).1 e0 a0 c' hroot1 hpath hget1 hchain1
      hstrict
  have hfil1 : ([s1] ++ [s2]).filter (· ≠ s1) = [s2] := by
    simp [List.filter, hs, Ne.symm hs]
  obtain ⟨hev3, hroot3, hget3, hchain3, -⟩ :=
    remove_chain_vault t s1 ([s1] ++ [s2]) ((freshVault.add t s1).1.add t s2).1 e0 a0 c'
      hroot2 hpath hget2 hchain2 hstrict (by simp) (by rw [hfil1]; simp)
  rw [hfil1] at hchain3
  have hfil2 : ([s2] : List Subscription).filter (· ≠ s2) = [] := by simp
  obtain ⟨hev4, -, -⟩ :=
    remove_chain_vault_last t s2 [s2] (((freshVault.add t s1).1.add t s2).1.remove t s1).1
      e0 a0 c' hroot3 hpath hget3 hchain3 hstrict (by simp) hfil2
  exact ⟨hev1, by rw [hev2]; rfl, hev3, hev4⟩

/-- Witness for C3 at topic `"a/b"` and handles `0 ≠ 1`. -/
theorem claim_C3_witness :
    (freshVault.add "a/b" 0).2 = [Event.added "a/b"] ∧
    ((freshVault.add "a/b" 0).1.add "a/b" 1).2 = [] ∧
    (((freshVault.add "a/b" 0).1.add "a/b" 1).1.remove "a/b" 0).2 = ([], false) ∧
    ((((freshVault.add "a/b" 0).1.add "a/b" 1).1.remove "a/b" 0).1.remove "a/b" 1).2 =
      ([Event.removed "a/b"], false) :=
  claim_C3_exactly_once "a/b" 0 1 (by decide)

/-- Claim C10 (status: confirmed).  A single `remove` deletes every
occurrence of the handle: after adding the same handle twice and removing
it once on a fresh vault, `findMatches` on the topic finds nothing (the
whole chain is pruned) and `onTopicRemoved` has fired. -/
theorem claim_C10_remove_all_occurrences (t : String) (s : Subscription) :
    (((freshVault.add t s).1.add t s).1.remove t s).2 = ([Event.removed t], false) ∧
    ((((freshVault.add t s).1.add t s).1.remove t s).1.findMatches t = some []) := by
  obtain ⟨e0, a0, c', hpath, hev1, hroot1, hget1, hchain1, hstrict⟩ := add_fresh_chain t s
  obtain ⟨hev2, hroot2, hget2, hchain2, -⟩ :=
    add_chain_vault t s [s] (freshVault.add t s).1 e0 a0 c' hroot1 hpath hget1 hchain1
      hstrict
  have hfil : ([s] ++ [s]).filter (· ≠ s) = [] := by simp
  obtain ⟨hev3, hroot3, hget3⟩ :=
    remove_chain_vault_last t s ([s] ++ [s]) ((freshVault.add t s).1.add t s).1 e0 a0 c'
      hroot2 hpath hget2 hchain2 hstrict (by simp) hfil
  refine ⟨hev3, ?_⟩
  unfold SubscriptionVault.findMatches
  rw [hroot3]
  exact findMatchesByPath_empty_children hget3 rfl _

/-- Association-list lookup among a doc-shape node's children. -/
def lookupT : List (String × PTree) → String → Option PTree
  | [], _ => none
  | (k', v') :: r, k => if k' = k then some v' else lookupT r k

/-- The subscription list registered in a doc-shape tree at the end of a
segment path, if that path exists in the tree. -/
def PTree.subsAt : PTree → List String → Option (List Subscription)
  | .node _ subs, [] => some subs
  | .node cs _, e :: p =>
    match lookupT cs e with
    | some T2 => T2.subsAt p
    | none => none

mutual

/-- Address `a` of the heap holds a faithful copy of the doc-shape tree. -/
def Reps (h : Heap) : Nat → PTree → Prop
  | a, .node cs subs =>
    ∃ cas par, h.get a = some ⟨some cas, some subs, par⟩ ∧ RepsList h cas cs

/-- The children lists correspond key by key, in order. -/
def RepsList (h : Heap) : List (String × Nat) → List (String × PTree) → Prop
  | [], [] => True
  | (e, ca) :: cr, (e2, T2) :: cr2 => e = e2 ∧ Reps h ca T2 ∧ RepsList h cr cr2
  | _ :: _, [] => False
  | [], _ :: _ => False

end

/-- Every allocated node has a present `children` field whose child
addresses are all allocated (true of heaps built purely by `PTree.load`). -/
def TotalHeap (h : Heap) : Prop :=
  ∀ a nd, h.get a = some nd →
    nd.children ≠ none ∧ ∀ p ∈ nd.children.getD [], (h.get p.2).isSome

/-- An address holding an object lies below the allocation pointer. -/
theorem lt_next_of_get_some {h : Heap} {a : Nat} {nd : Node} (hbd : Bounded h)
    (hget : h.get a = some nd) : a < h.next := by
  by_contra hge
  rw [hbd a (by omega)] at hget
  exact Option.noConfusion hget

/-- Allocation preserves every stored object of a bounded heap. -/
theorem alloc_ext {h : Heap} (hbd : Bounded h) (x : Node) :
    ∀ a nd, h.get a = some nd → (h.alloc x).2.get a = some nd := by
  intro a nd hget
  rw [Heap.get_alloc_ne _ _ _ (Nat.ne_of_lt (lt_next_of_get_some hbd hget))]
  exact hget

mutual

/-- `Reps` only reads the heap through `get`, so it survives any extension
of the heap. -/
theorem reps_mono : ∀ (T : PTree) (h h2 : Heap) (a : Nat),
    Reps h a T → (∀ b nd, h.get b = some nd → h2.get b = some nd) → Reps h2 a T
  | .node cs subs, h, h2, a, hrep, hext => by
    obtain ⟨cas, par, hget, hlist⟩ := hrep
    exact ⟨cas, par, hext a _ hget, repsList_mono cs cas h h2 hlist hext⟩

/-- List version of `reps_mono`. -/
theorem repsList_mono : ∀ (cs : List (String × PTree)) (cas : List (String × Nat))
    (h h2 : Heap),
    RepsList h cas cs → (∀ b nd, h.get b = some nd → h2.get b = some nd) →
    RepsList h2 cas cs
  | [], [], _, _, _, _ => trivial
  | (e2, T2) :: cr2, (e, ca) :: cr, h, h2, hlist, hext => by
    obtain ⟨he, hr, hrest⟩ := hlist
    exact ⟨he, reps_mono T2 h h2 ca hr hext, repsList_mono cr2 cr h h2 hrest hext⟩
  | (_, _) :: _, [], _, _, hlist, _ => absurd hlist id
  | [], (_, _) :: _, _, _, hlist, _ => absurd hlist id

end

mutual

/-- Loading a doc-shape tree into a bounded, total heap yields a bounded,
total extension in which the returned address represents the tree. -/
theorem load_spec : ∀ (T : PTree) (h : Heap), Bounded h → TotalHeap h →
    Bounded (T.load h).2 ∧ h.next ≤ (T.load h).2.next ∧
    ((T.load h).2.get (T.load h).1).isSome ∧
    (∀ a nd, h.get a = some nd → (T.load h).2.get a = some nd) ∧
    TotalHeap (T.load h).2 ∧ Reps (T.load h).2 (T.load h).1 T
  | .node cs subs, h => by
    intro hbd htot
    obtain ⟨hbd1, hle1, hsome1, hext1, htot1, hlist1⟩ :=
      loadChildren_spec cs h hbd htot
    rcases hch : PTree.loadChildren cs h with ⟨cas, h1⟩
    simp only [hch] at hbd1 hle1 hsome1 hext1 htot1 hlist1
    have hload : (PTree.node cs subs).load h =
        (h1.next, (h1.alloc ⟨some cas, some subs, none⟩).2) := by
      unfold PTree.load
      rw [hch]
      rfl
    rw [hload]
    have hext2 : ∀ a nd, h1.get a = some nd →
        (h1.alloc ⟨some cas, some subs, none⟩).2.get a = some nd := alloc_ext hbd1 _
    have hnew : (h1.alloc ⟨some cas, some subs, none⟩).2.get h1.next =
        some ⟨some cas, some subs, none⟩ := Heap.get_alloc_self h1 _
    refine ⟨?_, ?_, ?_, ?_, ?_, ?_⟩
    · intro x hx
      have hx' : h1.next + 1 ≤ x := hx
      have hx1 : x ≠ h1.next := by omega
      rw [Heap.get_alloc_ne _ _ _ hx1]
      exact hbd1 x (by omega)
    · have h2n : (h1.alloc ⟨some cas, some subs, none⟩).2.next = h1.next + 1 := rfl
      show h.next ≤ (h1.alloc ⟨some cas, some subs, none⟩).2.next
      omega
    · rw [hnew]
      rfl
    · intro a nd hget
      exact hext2 a nd (hext1 a nd hget)
    · intro a nd hget
      by_cases ha : a = h1.next
      · subst ha
        rw [hnew] at hget
        cases hget
        refine ⟨by simp, ?_⟩
        intro p hp
        simp only [Option.getD_some] at hp
        have := hsome1 p hp
        obtain ⟨nd2, hnd2⟩ := Option.isSome_iff_exists.mp this
        rw [hext2 p.2 nd2 hnd2]
        rfl
      · rw [Heap.get_alloc_ne _ _ _ ha] at hget
        obtain ⟨hc, hkids⟩ := htot1 a nd hget
        refine ⟨hc, ?_⟩
        intro p hp
        have := hkids p hp
        obtain ⟨nd2, hnd2⟩ := Option.isSome_iff_exists.mp this
        rw [hext2 p.2 nd2 hnd2]
        rfl
    · exact ⟨cas, none, hnew, repsList_mono cs cas h1 _ hlist1 hext2⟩

/-- Loading a list of child subtrees, with the address list's objects all
present. -/
theorem loadChildren_spec : ∀ (cs : List (String × PTree)) (h : Heap),
    Bounded h → TotalHeap h →
    Bounded (PTree.loadChildren cs h).2 ∧ h.next ≤ (PTree.loadChildren cs h).2.next ∧
    (∀ p ∈ (PTree.loadChildren cs h).1, ((PTree.loadChildren cs h).2.get p.2).isSome) ∧
    (∀ a nd, h.get a = some nd → (PTree.loadChildren cs h).2.get a = some nd) ∧
    TotalHeap (PTree.loadChildren cs h).2 ∧
    RepsList (PTree.loadChildren cs h).2 (PTree.loadChildren cs h).1 cs
  | [], h => by
    intro hbd htot
    exact ⟨hbd, le_refl _, by simp [PTree.loadChildren], fun a nd hget => hget, htot, trivial⟩
  | (e, T) :: rest, h => by
    intro hbd htot
    obtain ⟨hbdT, hleT, hsomeT, hextT, htotT, hrepT⟩ := load_spec T h hbd htot
    rcases hT : T.load h with ⟨a, h1⟩
    simp only [hT] at hbdT hleT hsomeT hextT htotT hrepT
    obtain ⟨hbd2, hle2, hsome2, hext2, htot2, hlist2⟩ := loadChildren_spec rest h1 hbdT htotT
    rcases hrest : PTree.loadChildren rest h1 with ⟨ras, h2⟩
    simp only [hrest] at hbd2 hle2 hsome2 hext2 htot2 hlist2
    have hload : PTree.loadChildren ((e, T) :: rest) h = ((e, a) :: ras, h2) := by
      unfold PTree.loadChildren
      rw [hT]
      show (match PTree.loadChildren rest h1 with | (ras, h2) => ((e, a) :: ras, h2)) = _
      rw [hrest]
    rw [hload]
    refine ⟨hbd2, le_trans hleT hle2, ?_, ?_, htot2, ?_⟩
    · intro p hp
      rcases List.mem_cons.mp hp with hp1 | hp2
      · subst hp1
        obtain ⟨nd2, hnd2⟩ := Option.isSome_iff_exists.mp hsomeT
        rw [hext2 a nd2 hnd2]
        rfl
      · exact hsome2 p hp2
    · intro b nd hget
      exact hext2 b nd (hextT b nd hget)
    · show RepsList h2 ((e, a) :: ras) ((e, T) :: rest)
      simp only [RepsList]
      exact ⟨trivial, reps_mono T h1 h2 a hrepT hext2, hlist2⟩

end

/-- On a total heap the matching walk never throws. -/
theorem findMatchesByPath_total (h : Heap) (htot : TotalHeap h) :
    ∀ (p : List String) (n : Option Nat),
      SubscriptionVault.findMatchesByPath h p n ≠ none := by
  intro p
  induction p with
  | nil => intro n; simp [SubscriptionVault.findMatchesByPath]
  | cons pe rest ih =>
    intro n
    cases n with
    | none => simp [SubscriptionVault.findMatchesByPath]
    | some a =>
      cases hget : h.get a with
      | none => simp [SubscriptionVault.findMatchesByPath, hget]
      | some nd =>
        obtain ⟨hc, hkids⟩ := htot a nd hget
        obtain ⟨actual, hact⟩ : ∃ actual, nd.children = some actual := by
          cases hch : nd.children with
          | none => exact absurd hch hc
          | some x => exact ⟨x, rfl⟩
        rw [findMatchesByPath_cons h pe rest a nd actual hget hact]
        cases htl : SubscriptionVault.findMatchesByPath h rest (alookup actual pe) with
        | none => exact absurd htl (ih _)
        | some tl =>
          cases hsl : alookup actual "+" with
          | none => simp [hsl, htl]
          | some w =>
            by_cases hpe : pe ≠ "+"
            · cases hw : SubscriptionVault.findMatchesByPath h rest (some w) with
              | none => exact absurd hw (ih _)
              | some p2 => simp [hsl, if_pos hpe, hw, htl]
            · simp [hsl, if_neg hpe, htl]

/-- Key-by-key correspondence carries association-list lookups from the
doc-shape tree to the heap children. -/
theorem repsList_alookup : ∀ (cs : List (String × PTree)) (cas : List (String × Nat))
    (h : Heap) (e : String) (T2 : PTree),
    RepsList h cas cs → lookupT cs e = some T2 →
    ∃ ca, alookup cas e = some ca ∧ Reps h ca T2 := by
  intro cs
  induction cs with
  | nil =>
    intro cas h e T2 hlist hlk
    exact absurd hlk (by simp [lookupT])
  | cons hd cr2 ih =>
    intro cas h e T2 hlist hlk
    obtain ⟨e2, T3⟩ := hd
    cases cas with
    | nil => exact absurd hlist (by simp [RepsList])
    | cons hd2 cr =>
      obtain ⟨ek, ca⟩ := hd2
      simp only [RepsList] at hlist
      obtain ⟨he, hr, hrest⟩ := hlist
      simp only [lookupT] at hlk
      by_cases hm : e2 = e
      · rw [if_pos hm] at hlk
        cases hlk
        refine ⟨ca, ?_, hr⟩
        simp only [alookup, he, if_pos hm]
      · rw [if_neg hm] at hlk
        obtain ⟨ca2, hca2, hr2⟩ := ih cr h e T2 hrest hlk
        refine ⟨ca2, ?_, hr2⟩
        simp only [alookup]
        rw [if_neg (by rw [he]; exact hm)]
        exact hca2

/-- If a subscription is registered in the represented tree at a non-empty
path, a successful matching walk returns it. -/
theorem reps_find_contains : ∀ (p : List String) (h : Heap) (a : Nat) (T : PTree)
    (l res : List Subscription) (s : Subscription),
    TotalHeap h → Reps h a T → p ≠ [] →
    T.subsAt p = some l → s ∈ l →
    SubscriptionVault.findMatchesByPath h p (some a) = some res → s ∈ res := by
  intro p
  induction p with
  | nil => intro _ _ _ _ _ _ _ _ hp; exact absurd rfl hp
  | cons pe rest ih =>
    intro h a T l res s htot hrep hp hsub hs hres
    obtain ⟨cs, subs0⟩ := T
    simp only [Reps] at hrep
    obtain ⟨cas, par, hget, hlist⟩ := hrep
    simp only [PTree.subsAt] at hsub
    cases hlk : lookupT cs pe with
    | none => rw [hlk] at hsub; exact absurd hsub (by simp)
    | some T2 =>
      rw [hlk] at hsub
      obtain ⟨ca, hca, hr2⟩ := repsList_alookup cs cas h pe T2 hlist hlk
      rw [findMatchesByPath_cons h pe rest a ⟨some cas, some subs0, par⟩ cas hget rfl] at hres
      simp only at hres
      cases rest with
      | nil =>
        simp only [PTree.subsAt] at hsub
        obtain ⟨cs2, subs2⟩ := T2
        cases hsub
        simp only [Reps] at hr2
        obtain ⟨cas2, par2, hget2, _⟩ := hr2
        simp only [hca, hget2, Option.some_bind, Option.getD_some] at hres
        split at hres
        · exact absurd hres (by simp)
        · split at hres
          · exact absurd hres (by simp)
          · cases hres
            simp [hs]
      | cons r2 rest2 =>
        split at hres
        · exact absurd hres (by simp)
        · rename_i p2 hp2
          split at hres
          · exact absurd hres (by simp)
          · rename_i tl htl
            rw [hca] at htl
            cases hres
            have hmem := ih h ca T2 l tl s htot hr2 (by simp) hsub hs htl
            simp [hmem]

/-- Claim C9, amended theorem (status: corrected).  The recognized
constructor option is `subscriptionTree`: for every pre-built tree of the
documented shape, a vault constructed with it resumes from it — a topic
registered in the tree has its subscriptions found by `findMatches` (which,
on such a loaded tree, cannot throw) — and when the option is omitted the
vault starts from a fresh empty root object.  The query topic's segments
are hypothesized to avoid the `Object.prototype` property names: for a
segment such as `"constructor"` the walk's advance (notably the `+`
wildcard recursion) would find the inherited object under an absent own
key, stray into it and throw; see `protoProps`. -/
theorem claim_C9_subscription_tree (T : PTree) (t : String) (s : Subscription)
    (l : List Subscription)
    (hsub : T.subsAt (SubscriptionVault.topicToPath t) = some l)
    (hs : s ∈ l)
    (_hsafe : ∀ e ∈ SubscriptionVault.topicToPath t, e ∉ protoProps) :
    (∃ res, (SubscriptionVault.construct { subscriptionTree := some T }).findMatches t =
        some res ∧ s ∈ res) ∧
    (SubscriptionVault.construct {}).heap.get
      (SubscriptionVault.construct {}).subscriptionTree = some ⟨none, none, none⟩ := by
  refine ⟨?_, rfl⟩
  have hbd0 : Bounded Heap.empty := fun x _ => rfl
  have htot0 : TotalHeap Heap.empty := fun a nd hget =>
    absurd hget (by simp [Heap.empty, Heap.get])
  obtain ⟨hbd, hle, hsome, hext, htot, hrep⟩ := load_spec T Heap.empty hbd0 htot0
  rcases hload : T.load Heap.empty with ⟨r, h⟩
  simp only [hload] at hbd hle hsome hext htot hrep
  have hcon : SubscriptionVault.construct { subscriptionTree := some T } =
      ⟨h, r⟩ := by
    unfold SubscriptionVault.construct
    show (let rh := T.load Heap.empty; (⟨rh.2, rh.1⟩ : SubscriptionVault)) = _
    rw [hload]
  rw [hcon]
  have hne := findMatchesByPath_total h htot (SubscriptionVault.topicToPath t) (some r)
  cases hres : SubscriptionVault.findMatchesByPath h (SubscriptionVault.topicToPath t)
      (some r) with
  | none => exact absurd hres hne
  | some res =>
    refine ⟨res, hres, ?_⟩
    exact reps_find_contains (SubscriptionVault.topicToPath t) h r T l res s htot hrep
      (topicToPath_ne_nil t) hsub hs hres

/-- Witness for the amended C9 at a one-node tree holding handle `7` at
topic `"a"` (a segment outside the `Object.prototype` names). -/
theorem claim_C9_witness :
    (∃ res, (SubscriptionVault.construct
        { subscriptionTree := some (.node [("a", .node [] [7])] []) }).findMatches "a" =
        some res ∧ 7 ∈ res) ∧
    (SubscriptionVault.construct {}).heap.get
      (SubscriptionVault.construct {}).subscriptionTree = some ⟨none, none, none⟩ :=
  claim_C9_subscription_tree (.node [("a", .node [] [7])] []) "a" 7 [7] (by decide)
    (by decide) (by decide)

/-- The upward pass started on `undefined` or on a destructuring-default
dummy object does nothing. -/
theorem removeUp_triv : ∀ (l : List String) (h : Heap),
    SubscriptionVault.removeUp l JRef.undef h = (h, false) ∧
    SubscriptionVault.removeUp l JRef.dummy h = (h, false) := by
  intro l h
  cases l with
  | nil => exact ⟨rfl, rfl⟩
  | cons e rest =>
    constructor
    · rfl
    · show SubscriptionVault.removeUp rest JRef.undef h = (h, false)
      exact (removeUp_triv rest h).1

/-- When the downward walk's prefix breaks before the final segment, the
pass makes no writes and emits no events; the cached `nextNode` ends as
`undefined` or a dummy. -/
theorem removeDown_partial (s : Subscription) (t : String) (e : String) :
    ∀ (q : List String) (a : Nat) (h : Heap) (nn : JRef),
      followPath h a q = none →
      ∃ nn2 th, (nn2 = JRef.undef ∨ nn2 = JRef.dummy) ∧
        SubscriptionVault.removeDown s t (q ++ [e]) (some a) nn h = (h, [], nn2, th) := by
  intro q
  induction q with
  | nil => intro a h nn hf; exact absurd hf (by simp [followPath])
  | cons e0 q' ih =>
    intro a h nn hf
    simp only [followPath] at hf
    split at hf
    · rename_i hget
      refine ⟨JRef.undef, false, Or.inl rfl, ?_⟩
      rw [List.cons_append]
      simp only [SubscriptionVault.removeDown, hget]
    · rename_i nd hget
      split at hf
      case h_1 c hlk =>
        obtain ⟨actual, hact, hla⟩ := alookup_getD_some hlk
        obtain ⟨nn2, th, hval, hrec⟩ := ih c h (JRef.addr c) hf
        refine ⟨nn2, th, hval, ?_⟩
        have key : SubscriptionVault.removeDown s t (e0 :: (q' ++ [e])) (some a) nn h =
            (let rq := SubscriptionVault.removeDown s t (q' ++ [e]) (some c) (JRef.addr c) h
             (rq.1, [] ++ rq.2.1, rq.2.2.1, rq.2.2.2)) := by
          simp only [SubscriptionVault.removeDown, hget, hact, Option.getD_some, hla,
            if_neg (show ¬ (q' ++ [e] = []) by simp)]
        rw [List.cons_append, key, hrec]
        exact rfl
      case h_2 hlk =>
        cases hact : nd.children with
        | none =>
          refine ⟨JRef.dummy, true, Or.inr rfl, ?_⟩
          rw [List.cons_append]
          simp only [SubscriptionVault.removeDown, hget, hact, Option.getD_none,
            if_neg (show ¬ (q' ++ [e] = []) by simp)]
          rw [show alookup [] e0 = none from rfl]
        | some actual =>
          have hla : alookup actual e0 = none := by
            rw [hact] at hlk
            simpa using hlk
          refine ⟨JRef.dummy, false, Or.inr rfl, ?_⟩
          rw [List.cons_append]
          simp only [SubscriptionVault.removeDown, hget, hact, Option.getD_some, hla,
            if_neg (show ¬ (q' ++ [e] = []) by simp)]
          rcases hq : q' ++ [e] with _ | ⟨x, xs⟩
          · exact absurd hq (by simp)
          · simp only [SubscriptionVault.removeDown, List.nil_append]

/-- Claim C4 (status: corrected).  The unrestricted pruning invariant fails
(see the counterexample: a vault whose tree was supplied as a doc-shape
literal has no `parent` back-pointers, so the upward pass deletes nothing
and an empty node stays reachable).  Amended to trees built through `add`,
which installs the back-pointers, over topics whose segments are not
`Object.prototype` property names (for a segment such as `"constructor"`
the destructuring default in `add` is skipped in favour of the inherited
object, which carries no `parent` pointer and survives pruning; see
`protoProps`): on a fresh vault, after `add(t, S)` followed by
`remove(t, S)` for any such topic `t`, the remove completes normally firing
`onTopicRemoved` once, the root survives with a present-and-empty children
map, and no non-root node is reachable from the root (every non-empty
segment path leads nowhere) — in particular none of the `t`-path nodes
remain. -/
theorem claim_C4_pruning (t : String) (s : Subscription)
    (_hsafe : ∀ e ∈ SubscriptionVault.topicToPath t, e ∉ protoProps) :
    (((freshVault.add t s).1.remove t s).2 = ([Event.removed t], false)) ∧
    (((freshVault.add t s).1.remove t s).1.subscriptionTree = 0) ∧
    (((freshVault.add t s).1.remove t s).1.heap.get 0 = some ⟨some [], none, none⟩) ∧
    (∀ p : List String, p ≠ [] →
      followPath ((freshVault.add t s).1.remove t s).1.heap 0 p = none) := by
  obtain ⟨e0, a0, c', hpath, hev1, hroot1, hget1, hchain1, hstrict⟩ := add_fresh_chain t s
  have hfil : ([s] : List Subscription).filter (· ≠ s) = [] := by simp
  obtain ⟨hev, hroot, hget⟩ :=
    remove_chain_vault_last t s [s] (freshVault.add t s).1 e0 a0 c'
      hroot1 hpath hget1 hchain1 hstrict (by simp) hfil
  refine ⟨hev, hroot, hget, ?_⟩
  intro p hp
  cases p with
  | nil => exact absurd rfl hp
  | cons e p' =>
    simp only [followPath]
    rw [hget]
    rfl

/-- Witness for the amended C4 at topic `"x/y/z"` (whose segments avoid the
`Object.prototype` names) and handle `0`: the claim theorem applied there,
with the reachability conjunct instantiated at the path `["x"]`. -/
theorem claim_C4_witness :
    (((freshVault.add "x/y/z" 0).1.remove "x/y/z" 0).2 = ([Event.removed "x/y/z"], false)) ∧
    (((freshVault.add "x/y/z" 0).1.remove "x/y/z" 0).1.subscriptionTree = 0) ∧
    (((freshVault.add "x/y/z" 0).1.remove "x/y/z" 0).1.heap.get 0 =
      some ⟨some [], none, none⟩) ∧
    followPath ((freshVault.add "x/y/z" 0).1.remove "x/y/z" 0).1.heap 0 ["x"] = none :=
  ⟨(claim_C4_pruning "x/y/z" 0 (by decide)).1,
   (claim_C4_pruning "x/y/z" 0 (by decide)).2.1,
   (claim_C4_pruning "x/y/z" 0 (by decide)).2.2.1,
   (claim_C4_pruning "x/y/z" 0 (by decide)).2.2.2 ["x"] (by decide)⟩

/-- Claim C7 (status: corrected).  The unrestricted claim fails: when the
terminal subscription list is present but already empty, removing an absent
handle still fires `onTopicRemoved` (see the counterexample).  Amended with
the missing proviso that some other subscriber remains at the terminal
node: on a chain vault (a tree built by `add`, whose back-pointers are
real), removing a handle that is not among the terminal node's non-empty
subscriptions changes nothing at all — the vault is returned identical, so
every `findMatches` answer is preserved — fires no `onTopicRemoved`, and
reports the absence only through the non-fatal diagnostic. -/
theorem claim_C7_no_change (t : String) (s : Subscription) (subs : List Subscription)
    (v : SubscriptionVault) (e0 : String) (a0 : Nat) (c' : List (String × Nat))
    (hroot : v.subscriptionTree = 0)
    (hpath : SubscriptionVault.topicToPath t = ((e0, a0) :: c').map Prod.fst)
    (hget : v.heap.get 0 = some ⟨some [(e0, a0)], none, none⟩)
    (hchain : ChainNodes v.heap subs 0 ((e0, a0) :: c'))
    (hstrict : StrictChain 0 ((e0, a0) :: c'))
    (hnotin : s ∉ subs) (hsub : subs ≠ []) :
    (v.remove t s).1 = v ∧
    (v.remove t s).2 = ([Event.notFound t s], false) ∧
    (∀ q : String, (v.remove t s).1.findMatches q = v.findMatches q) := by
  obtain ⟨tPar, h3, heq3, hh3, hchain3, hframe3, hnext3⟩ :=
    removeDown_chain s t c' e0 a0 subs 0 v.heap ⟨some [(e0, a0)], none, none⟩ JRef.undef
      hchain hget (by simp [alookup]) hstrict
  rw [if_neg hnotin] at hh3 hchain3
  subst hh3
  have hup := removeUp_chain_keep v.heap subs hsub c' e0 a0 0 hchain3 []
  rw [List.append_nil] at hup
  have hrem : v.remove t s = (⟨v.heap, 0⟩, [Event.notFound t s], false) := by
    unfold SubscriptionVault.remove
    rw [hpath, hroot]
    simp only [heq3, if_neg hnotin, if_neg hsub, Bool.false_eq_true, if_false,
      hup, SubscriptionVault.removeUp, List.append_nil]
  have hveq : (⟨v.heap, 0⟩ : SubscriptionVault) = v := by
    cases v with
    | mk heap root => simp only at hroot; rw [hroot]
  rw [hrem, hveq]
  exact ⟨rfl, rfl, fun _ => rfl⟩

/-- Witness for the amended C7: on the chain vault built by
`add("a/b", 0)`, removing the absent handle `1` returns the vault unchanged,
emits only the diagnostic, and preserves the `findMatches` answer for
`"a/b"`. -/
theorem claim_C7_witness :
    ((freshVault.add "a/b" 0).1.remove "a/b" 1).1 = (freshVault.add "a/b" 0).1 ∧
    ((freshVault.add "a/b" 0).1.remove "a/b" 1).2 = ([Event.notFound "a/b" 1], false) ∧
    ((freshVault.add "a/b" 0).1.remove "a/b" 1).1.findMatches "a/b" =
      (freshVault.add "a/b" 0).1.findMatches "a/b" := by
  have h := claim_C7_no_change "a/b" 1 [0] (freshVault.add "a/b" 0).1 "a" 1 [("b", 2)]
    (by decide) (by decide) (by decide)
    ⟨by decide, show (freshVault.add "a/b" 0).1.heap.get 2 = some ⟨none, some [0], some 1⟩
      by decide⟩
    (by unfold StrictChain; simp) (by decide) (by decide)
  exact ⟨h.1, h.2.1, h.2.2 "a/b"⟩
